import Mathlib

/-!
Shallow embedding of the Titan neural-memory kernel
(`src/model.py` and `src/pytitan/model/neural_memory.py`).

Tensors are modelled as a shape together with flattened rational data
(floating point is modelled exactly over `ℚ`).  The mutable buffer map of
`torch.nn.Module` is modelled as an ordered association list, with
`register_buffer` replacing in place (PyTorch keeps dict insertion order and
overwrites an existing buffer name) and `get_buffer` as `find?`.  Exceptions
are modelled by returning the state reached at raise time together with an
error message, so that atomicity claims are genuine statements.
-/

/-- A tensor: a shape and the row-major flattened data. -/
structure Tensor where
  shape : List Nat
  data : List ℚ
deriving DecidableEq

/-- All-zero tensor of the same shape and size, as `torch.zeros_like`. -/
def Tensor.zeros_like (t : Tensor) : Tensor :=
  ⟨t.shape, List.replicate t.data.length 0⟩

/-- Elementwise scalar multiplication (scalar * tensor broadcast). -/
def Tensor.smul (c : ℚ) (t : Tensor) : Tensor :=
  ⟨t.shape, t.data.map (fun q => c * q)⟩

/-- Elementwise addition of same-shaped tensors. -/
def Tensor.add (a b : Tensor) : Tensor :=
  ⟨a.shape, List.zipWith (fun p q => p + q) a.data b.data⟩

/-- Number of columns of a (at least 2-dimensional) tensor. -/
def Tensor.cols (t : Tensor) : Nat := t.shape.getD 1 0

/-- Entry `(i, j)` of a 2-dimensional tensor (0 outside the data). -/
def Tensor.entry2 (t : Tensor) (i j : Nat) : ℚ :=
  t.data.getD (i * t.cols + j) 0

/-- Concatenation of the blocks `f 0, f 1, ..., f (n-1)`. -/
def buildList (f : Nat → List ℚ) : Nat → List ℚ
  | 0 => []
  | n + 1 => buildList f n ++ f n

/-- Row-major data of an `r × c` matrix with entries `f i j`. -/
def rowsData (c : Nat) (f : Nat → Nat → ℚ) (r : Nat) : List ℚ :=
  buildList (fun i => (List.range c).map (f i)) r

/-- Finite sum `f 0 + ... + f (n-1)`. -/
def sumRange (n : Nat) (f : Nat → ℚ) : ℚ :=
  ((List.range n).map f).sum

/-- Python substring containment, `pat in s`. -/
def strContains (s pat : String) : Bool :=
  decide (pat.data <:+: s.data)

/-- `MemoryModule._get_corresponding_surprise_name`: the fixed suffix naming
convention pairing a weight with its surprise buffer. -/
def surpriseNameOf (name : String) : String :=
  name ++ "_surprise_tpast"

/-- The marker used by `get_named_weights` to filter surprise buffers:
`"surprise" not in name`. -/
def isSurprise (name : String) : Bool :=
  strContains name "surprise"

/-- The buffer map of an `nn.Module`: names to tensors, in insertion order. -/
abbrev Buffers := List (String × Tensor)

/-- `nn.Module.get_buffer`: look a buffer up by name. -/
def get_buffer (bufs : Buffers) (name : String) : Option Tensor :=
  (bufs.find? (fun p => p.1 == name)).map (fun p => p.2)

/-- `nn.Module.register_buffer`: overwrite the value under an existing name
(keeping its position, as a Python dict does), otherwise append. -/
def register_buffer (bufs : Buffers) (name : String) (t : Tensor) : Buffers :=
  if bufs.any (fun p => p.1 == name) then
    bufs.map (fun p => if p.1 == name then (name, t) else p)
  else
    bufs ++ [(name, t)]

/-- `MemoryModule` state: the fixed learning-rate scalar and the buffers. -/
structure MemoryModule where
  lr : ℚ
  buffers : Buffers
deriving DecidableEq

/-- `MemoryModule.get_named_weights`: the buffers whose name does not contain
the surprise marker. -/
def MemoryModule.get_named_weights (m : MemoryModule) : Buffers :=
  m.buffers.filter (fun p => !(isSurprise p.1))

/-- `MemoryModule.get_weights`. -/
def MemoryModule.get_weights (m : MemoryModule) : List Tensor :=
  m.get_named_weights.map (fun p => p.2)

/-- `MemoryModule._construct_layers`: register every weight returned by the
variant, each together with an all-zero surprise buffer. -/
def construct_layers (ws : List (String × Tensor)) : Buffers :=
  ws.foldl
    (fun bufs p =>
      register_buffer (register_buffer bufs p.1 p.2)
        (surpriseNameOf p.1) p.2.zeros_like)
    []

/-- The `ValueError` message raised by `_update_memory` on a length mismatch. -/
def shapeMismatchMsg (g w : Nat) : String :=
  "Number of gradients " ++ toString g ++ " does not match number of weights "
    ++ toString w

/-- The message of the warning logged when a gradient is `None`. -/
def noneGradWarning : String :=
  "Gradient for weight is None. Skipping update."

/-- The `AttributeError` raised by `get_buffer` on a missing name. -/
def missingBufferMsg : String :=
  "AttributeError: module has no buffer with the requested name"

/-- Result of an `update` call: the buffers at return (or raise) time, the
warnings logged, and the error raised, if any. -/
structure UpdateResult where
  store : Buffers
  warnings : List String
  err : Option String
deriving DecidableEq

/-- The loop body of `MemoryModule._update_memory`: for each gradient paired
with a (pre-captured) named weight, read the past surprise, skip with a
warning on a `None` gradient, and otherwise register the new surprise
`eta*s + lr*grad` and the new weight `(1-alpha)*w + surprise`. -/
def updateLoop (lr eta alpha : ℚ) :
    List (Option Tensor × String × Tensor) → Buffers → List String → UpdateResult
  | [], bufs, ws => ⟨bufs, ws, none⟩
  | (g?, n, w) :: rest, bufs, ws =>
    match get_buffer bufs (surpriseNameOf n) with
    | none => ⟨bufs, ws, some missingBufferMsg⟩
    | some past =>
      match g? with
      | none => updateLoop lr eta alpha rest bufs (ws ++ [noneGradWarning])
      | some g =>
        let s := Tensor.add (Tensor.smul eta past) (Tensor.smul lr g)
        let bufs1 := register_buffer bufs (surpriseNameOf n) s
        let bufs2 := register_buffer bufs1 n (Tensor.add (Tensor.smul (1 - alpha) w) s)
        updateLoop lr eta alpha rest bufs2 ws

/-- `MemoryModule.update` (which delegates to `_update_memory`): raise on a
gradient/weight count mismatch before touching any buffer, otherwise run the
per-entry loop. -/
def MemoryModule.update (m : MemoryModule) (grads : List (Option Tensor))
    (eta alpha : ℚ) : MemoryModule × List String × Option String :=
  let named := m.get_named_weights
  if grads.length ≠ named.length then
    (m, [], some (shapeMismatchMsg grads.length named.length))
  else
    let r := updateLoop m.lr eta alpha (grads.zip named) m.buffers []
    ({ m with buffers := r.store }, r.warnings, r.err)

/-- `x.permute(1, 0)`: transpose a 2-dimensional tensor; on any other number
of dimensions PyTorch raises (the length of the ordering must equal the
number of dimensions). -/
def permute10 (t : Tensor) : Except String Tensor :=
  match t.shape with
  | [r, c] => .ok ⟨[c, r], rowsData r (fun i j => t.entry2 j i) c⟩
  | _ => .error "number of dims do not match in permute"

/-- The `@` 2-dimensional matrix product, raising on incompatible shapes. -/
def matmul2 (a b : Tensor) : Except String Tensor :=
  match a.shape, b.shape with
  | [n, m], [m', p] =>
    if m = m' then
      .ok ⟨[n, p], rowsData p (fun i j => sumRange m (fun k => a.entry2 i k * b.entry2 k j)) n⟩
    else .error "mat1 and mat2 shapes cannot be multiplied"
  | _, _ => .error "matmul on non 2-dimensional tensors"

/-- `LinearMemory.construct_layers`: the single weight named model. -/
def LinearMemory.layerList (w : Tensor) : List (String × Tensor) :=
  [("model", w)]

/-- A `LinearMemory` store with the given initial weight matrix (the
Xavier-normal fill is an external initialization routine; the filled values
are taken as a parameter). -/
def LinearMemory.mk (lr : ℚ) (w : Tensor) : MemoryModule :=
  ⟨lr, construct_layers (LinearMemory.layerList w)⟩

/-- `LinearMemory.forward`: `(self.model @ x.permute(1, 0)).permute(1, 0)`. -/
def LinearMemory.forward (model x : Tensor) : Except String Tensor := do
  let xt ← permute10 x
  let y ← matmul2 model xt
  permute10 y

/-- An `nn.Linear(dIn, dOut)` applied along the last axis of a tensor: each
row of width `dIn` becomes `row @ W.T + b` of width `dOut` (the external
affine layer of the tensor runtime). -/
def affineRows (dIn dOut : Nat) (W : Tensor) (b : List ℚ) (x : Tensor) : Tensor :=
  ⟨x.shape.dropLast ++ [dOut],
   rowsData dOut
     (fun r j => sumRange dIn (fun i => W.entry2 j i * x.data.getD (r * dIn + i) 0) + b.getD j 0)
     (x.data.length / dIn)⟩

/-- Modelled from the spec: `pytitan/model/memory.py` is absent from `src/`,
so the memory store's forward used by the chunked orchestrator follows
section 4.2 of the spec: treat `x` as a batch of row vectors of width
`dim_in` and compute `x @ weight^T`, no bias, no nonlinearity. -/
def memForwardSpec (dIn dOut : Nat) (W : Tensor) (x : Tensor) : Tensor :=
  ⟨x.shape.dropLast ++ [dOut],
   rowsData dOut
     (fun r j => sumRange dIn (fun i => W.entry2 j i * x.data.getD (r * dIn + i) 0))
     (x.data.length / dIn)⟩

/-- `nn.L1Loss(reduction='sum')`: the summed absolute difference. -/
def l1sum (p v : Tensor) : ℚ :=
  (List.zipWith (fun a b => |a - b|) p.data v.data).sum

/-- The sign function used by the subgradient of `|.|` (0 at 0). -/
def sgn (q : ℚ) : ℚ :=
  if 0 < q then 1 else if q < 0 then -1 else 0

/-- The external autodiff boundary (`torch.autograd.grad`) at the call site
of `condition`: the gradient of `l1sum (memForwardSpec W k) v` with respect
to the weight matrix `W`, in closed form:
`d/dW[o, i] = sum over rows r of sgn(pred[r, o] - v[r, o]) * k[r, i]`. -/
def l1gradW (dIn dOut : Nat) (W k v : Tensor) : Tensor :=
  let rows := k.data.length / dIn
  let pred := memForwardSpec dIn dOut W k
  ⟨W.shape,
   rowsData dIn
     (fun o i => sumRange rows
       (fun r => sgn (pred.data.getD (r * dOut + o) 0 - v.data.getD (r * dOut + o) 0)
         * k.data.getD (r * dIn + i) 0))
     dOut⟩

/-- The number of splits produced by `torch.split` along a dimension of size
`l` with positive split size `c`: `max (ceil (l / c)) 1` (ATen returns one
empty chunk for an empty dimension). -/
def numSplits (l c : Nat) : Nat :=
  max ((l + c - 1) / c) 1

/-- The width of chunk `i` out of `n = numSplits l c` chunks: `c` for all but
the last, which receives the remainder. -/
def splitWidth (l c n i : Nat) : Nat :=
  if i + 1 < n then c else l - c * (n - 1)

/-- The contiguous slice of a `[b, l, d]` tensor along dim 1 starting at
sequence position `start`, of width `width`. -/
def chunk3 (b l d : Nat) (data : List ℚ) (start width : Nat) : Tensor :=
  ⟨[b, width, d],
   buildList (fun bi =>
     buildList (fun t =>
       (List.range d).map (fun di => data.getD ((bi * l + (start + t)) * d + di) 0)) width) b⟩

/-- `torch.split(x, c, dim=1)` on a `[b, l, d]` tensor (the shape the chunked
orchestrator is driven with): consecutive non-overlapping slices of width `c`
along dim 1, the last receiving the remainder, with at least one chunk; a
non-positive split size raises unless the dimension is empty. -/
def splitDim1 (x : Tensor) (c : Int) : Except String (List Tensor) :=
  match x.shape with
  | [b, l, d] =>
    if c < 0 then .error "split expects split_size be non-negative"
    else if c = 0 then
      if l = 0 then .ok [chunk3 b l d x.data 0 0]
      else .error "split_size can only be 0 if dimension size is 0"
    else
      let cn := c.toNat
      let n := numSplits l cn
      .ok ((List.range n).map (fun i => chunk3 b l d x.data (cn * i) (splitWidth l cn n i)))
  | _ => .error "split along dim 1 of a non 3-dimensional tensor is not modelled"

/-- The chunked `NeuralMemory` of `pytitan/model/neural_memory.py`: the
update chunk size, the `LinearMemory` store, and the three learnable
projections (their learned weights and biases are state). -/
structure NeuralMemory where
  update_chunk_size : Int
  dim_in : Nat
  dim_out : Nat
  memory : MemoryModule
  keyW : Tensor
  keyB : List ℚ
  valueW : Tensor
  valueB : List ℚ
  queryW : Tensor
  queryB : List ℚ
deriving DecidableEq

/-- `NeuralMemory.__init__`: store the chunk size and build the store and
projections.  The source performs no validation of `dim_in`, `dim_out` or
`update_chunk_size`. -/
def NeuralMemory.init (dimIn dimOut : Nat) (chunk : Int) (lr : ℚ)
    (w0 kW : Tensor) (kB : List ℚ) (vW : Tensor) (vB : List ℚ)
    (qW : Tensor) (qB : List ℚ) : NeuralMemory :=
  { update_chunk_size := chunk
    dim_in := dimIn
    dim_out := dimOut
    memory := LinearMemory.mk lr w0
    keyW := kW, keyB := kB
    valueW := vW, valueB := vB
    queryW := qW, queryB := qB }

/-- The running state of `condition`: the memory store, the accumulated
detached surprise total, and the number of `update` calls performed. -/
structure CondState where
  memory : MemoryModule
  total : ℚ
  updateCalls : Nat
deriving DecidableEq

/-- One iteration of the chunk loop in `condition`: project the chunk through
the key and value layers, predict with the current memory weight, measure the
summed L1 surprise, take its gradient with respect to the memory weights and
call `update` with `eta = 0.9`, `alpha = 0.1`, accumulating the detached
surprise scalar. -/
def conditionStep (nm : NeuralMemory) (st : CondState) (ch : Tensor) : CondState :=
  let k := affineRows nm.dim_in nm.dim_in nm.keyW nm.keyB ch
  let v := affineRows nm.dim_in nm.dim_in nm.valueW nm.valueB ch
  let W := (get_buffer st.memory.buffers "model").getD ⟨[], []⟩
  let pred := memForwardSpec nm.dim_in nm.dim_out W k
  let sT := l1sum pred v
  let grads := [some (l1gradW nm.dim_in nm.dim_out W k v)]
  let upd := st.memory.update grads (9 / 10) (1 / 10)
  ⟨upd.1, st.total + sT, st.updateCalls + 1⟩

/-- `NeuralMemory.condition`: split the input along the sequence axis into
`update_chunk_size`-wide chunks and fold the per-chunk step over them in
order, starting from a zero surprise total. -/
def NeuralMemory.condition (nm : NeuralMemory) (x : Tensor) : Except String CondState :=
  (splitDim1 x nm.update_chunk_size).map
    (fun chunks => chunks.foldl (conditionStep nm) ⟨nm.memory, 0, 0⟩)

/-- `NeuralMemory.forward`: optionally apply the query projection, then the
memory store's forward; the module is returned unchanged (the source body
performs no state write). -/
def NeuralMemory.forward (nm : NeuralMemory) (x : Tensor) (query : Bool) :
    Tensor × NeuralMemory :=
  let xq := if query then affineRows nm.dim_in nm.dim_in nm.queryW nm.queryB x else x
  (memForwardSpec nm.dim_in nm.dim_out
    ((get_buffer nm.memory.buffers "model").getD ⟨[], []⟩) xq, nm)

/-- The manual chunk-by-chunk fold of the recurrence: chunk `i` is fully
applied to the store before chunk `i + 1` is considered. -/
def manualFold (nm : NeuralMemory) : List Tensor → MemoryModule → MemoryModule
  | [], m => m
  | ch :: rest, m => manualFold nm rest (conditionStep nm ⟨m, 0, 0⟩ ch).memory

/-- The surprise scalar of one chunk against a given store state. -/
def chunkSurprise (nm : NeuralMemory) (m : MemoryModule) (ch : Tensor) : ℚ :=
  l1sum
    (memForwardSpec nm.dim_in nm.dim_out
      ((get_buffer m.buffers "model").getD ⟨[], []⟩)
      (affineRows nm.dim_in nm.dim_in nm.keyW nm.keyB ch))
    (affineRows nm.dim_in nm.dim_in nm.valueW nm.valueB ch)

/-- The per-chunk surprise scalars along the evolving store states. -/
def surpriseSeq (nm : NeuralMemory) : List Tensor → MemoryModule → List ℚ
  | [], _ => []
  | ch :: rest, m =>
    chunkSurprise nm m ch :: surpriseSeq nm rest (conditionStep nm ⟨m, 0, 0⟩ ch).memory

/-- Keys of a buffer map. -/
def bufKeys (bufs : Buffers) : List String := bufs.map (fun p => p.1)

/-- The store well-formedness invariant: buffer names are distinct, and every
weight entry (a buffer whose name lacks the surprise marker) has a surprise
buffer of identical shape under the fixed name suffix. -/
def storeWF (bufs : Buffers) : Bool :=
  decide ((bufKeys bufs).Nodup) &&
  bufs.all (fun p =>
    isSurprise p.1 ||
    (match get_buffer bufs (surpriseNameOf p.1) with
     | some t => decide (t.shape = p.2.shape)
     | none => false))

/-- Sanity condition on a variant layer list fed to `_construct_layers`:
distinct names, none containing the surprise marker. -/
def layerListOK (ws : List (String × Tensor)) : Bool :=
  decide ((ws.map (fun p => p.1)).Nodup) && ws.all (fun p => !(isSurprise p.1))

/-- The buffer layout `_construct_layers` produces: each weight immediately
followed by its zero surprise buffer. -/
def interleaved : List (String × Tensor) → Buffers
  | [] => []
  | p :: rest => (p.1, p.2) :: (surpriseNameOf p.1, p.2.zeros_like) :: interleaved rest

/-- A sequence of `update` calls (a raising call leaves the module as the
caller held it). -/
def applyUpdates (m : MemoryModule) : List (List (Option Tensor) × ℚ × ℚ) → MemoryModule
  | [] => m
  | u :: rest => applyUpdates (m.update u.1 u.2.1 u.2.2).1 rest

/-- Decidable equality of results, for concrete evaluation. -/
instance {e a : Type} [DecidableEq e] [DecidableEq a] : DecidableEq (Except e a) :=
  fun x y =>
  match x, y with
  | .ok u, .ok v => decidable_of_iff (u = v) ⟨fun h => h ▸ rfl, Except.ok.inj⟩
  | .error u, .error v => decidable_of_iff (u = v) ⟨fun h => h ▸ rfl, Except.error.inj⟩
  | .ok _, .error _ => isFalse (fun h => Except.noConfusion h)
  | .error _, .ok _ => isFalse (fun h => Except.noConfusion h)

/-! ### Concrete instances used for evaluation -/

/-- A concrete 1x1 weight matrix. -/
def exW : Tensor := ⟨[1, 1], [2]⟩

/-- A concrete 1x1 gradient. -/
def exG : Tensor := ⟨[1, 1], [3]⟩

/-- The 1x1 zero tensor. -/
def exZ : Tensor := ⟨[1, 1], [0]⟩

/-- The 1x1 one tensor. -/
def exT1 : Tensor := ⟨[1, 1], [1]⟩

/-- A concrete linear store with learning rate 1. -/
def exStore : MemoryModule := LinearMemory.mk 1 exW

/-- A concrete chunked unit with chunk size 2. -/
def exNM : NeuralMemory := NeuralMemory.init 1 1 2 1 exW exT1 [0] exT1 [0] exT1 [0]

/-- A concrete chunked unit with chunk size 1. -/
def exNM1 : NeuralMemory := NeuralMemory.init 1 1 1 1 exW exT1 [0] exT1 [0] exT1 [0]

/-- A concrete chunked unit with all weights zero and chunk size 2. -/
def exNM0z : NeuralMemory := NeuralMemory.init 1 1 2 1 exZ exZ [0] exZ [0] exZ [0]

/-- A concrete batch-1 length-5 width-1 input. -/
def exX : Tensor := ⟨[1, 5, 1], [1, 2, 3, 4, 5]⟩

/-- A batch-1 input with an empty sequence axis. -/
def exX0 : Tensor := ⟨[1, 0, 1], []⟩

/-- A concrete 2x1 weight matrix. -/
def exW21 : Tensor := ⟨[2, 1], [1, 2]⟩

/-- A batch-1 length-1 zero input. -/
def exX1z : Tensor := ⟨[1, 1, 1], [0]⟩

/-! ### Name and lookup lemmas -/

theorem isSurprise_surpriseNameOf (n : String) : isSurprise (surpriseNameOf n) = true := by
  have h : "surprise".data <:+: "_surprise_tpast".data := by decide
  have h2 : "surprise".data <:+: n.data ++ "_surprise_tpast".data :=
    h.trans (List.suffix_append n.data "_surprise_tpast".data).isInfix
  simp [isSurprise, strContains, surpriseNameOf, String.data_append, h2]

theorem surpriseNameOf_inj {a b : String} (h : surpriseNameOf a = surpriseNameOf b) : a = b := by
  unfold surpriseNameOf at h
  have hd : a.data ++ "_surprise_tpast".data = b.data ++ "_surprise_tpast".data := by
    rw [← String.data_append, ← String.data_append, h]
  have h2 := List.append_cancel_right hd
  cases a
  cases b
  simp_all

theorem ne_surpriseNameOf_of_not_surprise {a b : String} (ha : isSurprise a = false) :
    a ≠ surpriseNameOf b := by
  intro h
  rw [h, isSurprise_surpriseNameOf] at ha
  simp at ha

theorem bufKeys_nil : bufKeys [] = [] := rfl

theorem bufKeys_cons (q : String × Tensor) (rest : Buffers) :
    bufKeys (q :: rest) = q.1 :: bufKeys rest := rfl

theorem any_key_iff (bufs : Buffers) (n : String) :
    (bufs.any (fun p => p.1 == n)) = true ↔ n ∈ bufKeys bufs := by
  induction bufs with
  | nil => simp [bufKeys]
  | cons q rest ih =>
    by_cases hq : q.1 = n
    · simp [bufKeys_cons, hq]
    · have hq2 : n ≠ q.1 := fun he => hq he.symm
      simp [bufKeys_cons, hq, hq2, ih]

theorem get_buffer_cons (q : String × Tensor) (rest : Buffers) (n : String) :
    get_buffer (q :: rest) n = if q.1 = n then some q.2 else get_buffer rest n := by
  by_cases hq : q.1 = n <;> simp [get_buffer, List.find?_cons, hq]

theorem get_buffer_nil (n : String) : get_buffer [] n = none := rfl

theorem get_buffer_isSome_of_mem_keys {bufs : Buffers} {n : String}
    (h : n ∈ bufKeys bufs) : ∃ t, get_buffer bufs n = some t := by
  induction bufs with
  | nil => simp [bufKeys] at h
  | cons q rest ih =>
    by_cases hq : q.1 = n
    · exact ⟨q.2, by simp [get_buffer_cons, hq]⟩
    · have hq2 : n ≠ q.1 := fun he => hq he.symm
      rcases ih (by simpa [bufKeys_cons, hq2] using h) with ⟨t, ht⟩
      exact ⟨t, by simp [get_buffer_cons, hq, ht]⟩

theorem mem_keys_of_get_buffer {bufs : Buffers} {n : String} {t : Tensor}
    (h : get_buffer bufs n = some t) : n ∈ bufKeys bufs := by
  induction bufs with
  | nil => simp [get_buffer_nil] at h
  | cons q rest ih =>
    rw [get_buffer_cons] at h
    by_cases hq : q.1 = n
    · simp [bufKeys_cons, hq]
    · rw [if_neg hq] at h
      exact List.mem_cons_of_mem _ (ih h)

theorem mem_of_get_buffer {bufs : Buffers} {n : String} {t : Tensor}
    (h : get_buffer bufs n = some t) : (n, t) ∈ bufs := by
  induction bufs with
  | nil => simp [get_buffer_nil] at h
  | cons q rest ih =>
    rw [get_buffer_cons] at h
    by_cases hq : q.1 = n
    · rw [if_pos hq] at h
      have : q = (n, t) := by
        cases q
        simp_all
      simp [this]
    · rw [if_neg hq] at h
      exact List.mem_cons_of_mem _ (ih h)

theorem get_buffer_of_mem_nodup {bufs : Buffers} {n : String} {t : Tensor}
    (hnd : (bufKeys bufs).Nodup) (h : (n, t) ∈ bufs) : get_buffer bufs n = some t := by
  induction bufs with
  | nil => simp at h
  | cons q rest ih =>
    rw [bufKeys_cons] at hnd
    rcases List.mem_cons.mp h with hq | hmem
    · simp [get_buffer_cons, ← hq]
    · have hq1 : q.1 ≠ n := by
        intro he
        exact (List.nodup_cons.mp hnd).1 (he ▸ List.mem_map.mpr ⟨(n, t), hmem, rfl⟩)
      rw [get_buffer_cons, if_neg hq1]
      exact ih (List.nodup_cons.mp hnd).2 hmem

theorem bufKeys_register_buffer (bufs : Buffers) (n : String) (t : Tensor)
    (h : n ∈ bufKeys bufs) :
    bufKeys (register_buffer bufs n t) = bufKeys bufs := by
  rw [register_buffer, if_pos ((any_key_iff bufs n).mpr h)]
  simp only [bufKeys, List.map_map]
  apply List.map_congr_left
  intro p hp
  by_cases hpn : p.1 = n
  · simp [Function.comp, hpn]
  · simp [Function.comp, hpn]

theorem get_buffer_map_replace_self (n : String) (t : Tensor) :
    ∀ bufs : Buffers, n ∈ bufKeys bufs →
      get_buffer (bufs.map (fun p => if p.1 == n then (n, t) else p)) n = some t := by
  intro bufs
  induction bufs with
  | nil => intro h; simp [bufKeys] at h
  | cons q rest ih =>
    intro h
    by_cases hq : q.1 = n
    · simp [get_buffer_cons, hq]
    · have hq2 : n ≠ q.1 := fun he => hq he.symm
      have hmem : n ∈ bufKeys rest := by simpa [bufKeys_cons, hq2] using h
      simp only [List.map_cons]
      rw [show (if (q.1 == n) = true then (n, t) else q) = q by simp [hq]]
      rw [get_buffer_cons, if_neg hq]
      exact ih hmem

theorem get_buffer_map_replace_ne (n k : String) (t : Tensor) (hk : k ≠ n) :
    ∀ bufs : Buffers,
      get_buffer (bufs.map (fun p => if p.1 == n then (n, t) else p)) k = get_buffer bufs k := by
  intro bufs
  induction bufs with
  | nil => rfl
  | cons q rest ih =>
    simp only [List.map_cons]
    by_cases hq : q.1 = n
    · rw [show (if (q.1 == n) = true then (n, t) else q) = (n, t) by simp [hq]]
      rw [get_buffer_cons, get_buffer_cons]
      have h1 : ¬((n, t).1 = k) := fun he => hk (he.symm)
      have h2 : ¬(q.1 = k) := by rw [hq]; exact fun he => hk he.symm
      rw [if_neg h1, if_neg h2, ih]
    · rw [show (if (q.1 == n) = true then (n, t) else q) = q by simp [hq]]
      rw [get_buffer_cons, get_buffer_cons, ih]

theorem get_buffer_register_buffer_self (bufs : Buffers) (n : String) (t : Tensor)
    (h : n ∈ bufKeys bufs) :
    get_buffer (register_buffer bufs n t) n = some t := by
  rw [register_buffer, if_pos ((any_key_iff bufs n).mpr h)]
  exact get_buffer_map_replace_self n t bufs h

theorem get_buffer_register_buffer_ne (bufs : Buffers) (n k : String) (t : Tensor)
    (hk : k ≠ n) :
    get_buffer (register_buffer bufs n t) k = get_buffer bufs k := by
  rw [register_buffer]
  by_cases hin : (bufs.any (fun p => p.1 == n)) = true
  · rw [if_pos hin]
    exact get_buffer_map_replace_ne n k t hk bufs
  · rw [if_neg hin]
    induction bufs with
    | nil =>
      simp [get_buffer_cons, get_buffer_nil, show ¬(n = k) from fun he => hk he.symm]
    | cons q rest ih =>
      rw [List.cons_append, get_buffer_cons, get_buffer_cons]
      by_cases hq : q.1 = k
      · simp [hq]
      · rw [if_neg hq, if_neg hq]
        apply ih
        intro hany
        exact hin (by simp [List.any_cons, hany])

/-! ### The update loop characterization -/

theorem updateLoop_spec (lr eta alpha : ℚ) :
    ∀ (l : List (Option Tensor × String × Tensor)) (bufs : Buffers) (ws : List String),
      (∀ x ∈ l, isSurprise x.2.1 = false) →
      (∀ x ∈ l, x.2.1 ∈ bufKeys bufs) →
      (∀ x ∈ l, surpriseNameOf x.2.1 ∈ bufKeys bufs) →
      (l.map (fun x => x.2.1)).Nodup →
      (updateLoop lr eta alpha l bufs ws).err = none ∧
      bufKeys (updateLoop lr eta alpha l bufs ws).store = bufKeys bufs ∧
      (updateLoop lr eta alpha l bufs ws).warnings
        = ws ++ List.replicate (l.countP (fun x => x.1.isNone)) noneGradWarning ∧
      (∀ k, (∀ x ∈ l, x.1 = none ∨ (k ≠ x.2.1 ∧ k ≠ surpriseNameOf x.2.1)) →
        get_buffer (updateLoop lr eta alpha l bufs ws).store k = get_buffer bufs k) ∧
      (∀ x ∈ l, ∀ s0, get_buffer bufs (surpriseNameOf x.2.1) = some s0 →
        match x.1 with
        | none =>
            get_buffer (updateLoop lr eta alpha l bufs ws).store x.2.1
              = get_buffer bufs x.2.1 ∧
            get_buffer (updateLoop lr eta alpha l bufs ws).store (surpriseNameOf x.2.1)
              = some s0
        | some g =>
            get_buffer (updateLoop lr eta alpha l bufs ws).store (surpriseNameOf x.2.1)
              = some (Tensor.add (Tensor.smul eta s0) (Tensor.smul lr g)) ∧
            get_buffer (updateLoop lr eta alpha l bufs ws).store x.2.1
              = some (Tensor.add (Tensor.smul (1 - alpha) x.2.2)
                  (Tensor.add (Tensor.smul eta s0) (Tensor.smul lr g)))) := by
  intro l
  induction l with
  | nil =>
    intro bufs ws _ _ _ _
    refine ⟨rfl, rfl, by simp [updateLoop], fun k _ => rfl, fun x hx => absurd hx (by simp)⟩
  | cons x rest ih =>
    intro bufs ws h1 h2 h3 hnd
    obtain ⟨g?, n, w⟩ := x
    have hsn : isSurprise n = false := h1 (g?, n, w) (List.mem_cons_self _ _)
    have hnk : n ∈ bufKeys bufs := h2 (g?, n, w) (List.mem_cons_self _ _)
    have hsk : surpriseNameOf n ∈ bufKeys bufs := h3 (g?, n, w) (List.mem_cons_self _ _)
    obtain ⟨past, hpast⟩ := get_buffer_isSome_of_mem_keys hsk
    have hnd2 : ((rest.map (fun x => x.2.1)).Nodup) ∧ n ∉ rest.map (fun x => x.2.1) := by
      rw [List.map_cons] at hnd
      exact ⟨(List.nodup_cons.mp hnd).2, (List.nodup_cons.mp hnd).1⟩
    have hnotin : ∀ y ∈ rest, n ≠ y.2.1 := by
      intro y hy he
      exact hnd2.2 (he ▸ List.mem_map.mpr ⟨y, hy, rfl⟩)
    cases g? with
    | none =>
      have hred : updateLoop lr eta alpha ((none, n, w) :: rest) bufs ws
          = updateLoop lr eta alpha rest bufs (ws ++ [noneGradWarning]) := by
        simp only [updateLoop]
        rw [hpast]
      obtain ⟨ih1, ih2, ih3, ih4, ih5⟩ :=
        ih bufs (ws ++ [noneGradWarning])
          (fun y hy => h1 y (List.mem_cons_of_mem _ hy))
          (fun y hy => h2 y (List.mem_cons_of_mem _ hy))
          (fun y hy => h3 y (List.mem_cons_of_mem _ hy))
          hnd2.1
      rw [hred]
      refine ⟨ih1, ih2, ?_, ?_, ?_⟩
      · rw [ih3]
        simp [List.countP_cons, List.replicate_succ]
      · intro k hk
        exact ih4 k (fun y hy => hk y (List.mem_cons_of_mem _ hy))
      · intro y hy s0 hs0
        rcases List.mem_cons.mp hy with hhead | htail
        · obtain rfl := hhead
          have hframe1 : get_buffer (updateLoop lr eta alpha rest bufs
              (ws ++ [noneGradWarning])).store n = get_buffer bufs n := by
            apply ih4
            intro y hy
            exact Or.inr ⟨hnotin y hy,
              ne_surpriseNameOf_of_not_surprise hsn⟩
          have hframe2 : get_buffer (updateLoop lr eta alpha rest bufs
              (ws ++ [noneGradWarning])).store (surpriseNameOf n)
              = get_buffer bufs (surpriseNameOf n) := by
            apply ih4
            intro y hy
            refine Or.inr ⟨?_, ?_⟩
            · exact fun he =>
                (ne_surpriseNameOf_of_not_surprise (h1 y (List.mem_cons_of_mem _ hy))) he.symm
            · exact fun he => hnotin y hy (surpriseNameOf_inj he)
          exact ⟨hframe1, by rw [hframe2, hs0]⟩
        · exact ih5 y htail s0 hs0
    | some g =>
      have hpasts0 : ∀ s0 : Tensor,
          get_buffer bufs (surpriseNameOf n) = some s0 → past = s0 := by
        intro s0 hs0
        rw [hpast] at hs0
        exact Option.some.inj hs0
      have hred : updateLoop lr eta alpha ((some g, n, w) :: rest) bufs ws
          = updateLoop lr eta alpha rest
              (register_buffer
                (register_buffer bufs (surpriseNameOf n)
                  (Tensor.add (Tensor.smul eta past) (Tensor.smul lr g))) n
                (Tensor.add (Tensor.smul (1 - alpha) w)
                  (Tensor.add (Tensor.smul eta past) (Tensor.smul lr g)))) ws := by
        simp only [updateLoop]
        rw [hpast]
      have hk1 : bufKeys (register_buffer bufs (surpriseNameOf n)
          (Tensor.add (Tensor.smul eta past) (Tensor.smul lr g))) = bufKeys bufs :=
        bufKeys_register_buffer bufs _ _ hsk
      have hk2 : bufKeys (register_buffer
          (register_buffer bufs (surpriseNameOf n)
            (Tensor.add (Tensor.smul eta past) (Tensor.smul lr g))) n
          (Tensor.add (Tensor.smul (1 - alpha) w)
            (Tensor.add (Tensor.smul eta past) (Tensor.smul lr g)))) = bufKeys bufs := by
        rw [bufKeys_register_buffer _ _ _ (hk1 ▸ hnk), hk1]
      obtain ⟨ih1, ih2, ih3, ih4, ih5⟩ :=
        ih (register_buffer
              (register_buffer bufs (surpriseNameOf n)
                (Tensor.add (Tensor.smul eta past) (Tensor.smul lr g))) n
              (Tensor.add (Tensor.smul (1 - alpha) w)
                (Tensor.add (Tensor.smul eta past) (Tensor.smul lr g)))) ws
          (fun y hy => h1 y (List.mem_cons_of_mem _ hy))
          (fun y hy => hk2 ▸ h2 y (List.mem_cons_of_mem _ hy))
          (fun y hy => hk2 ▸ h3 y (List.mem_cons_of_mem _ hy))
          hnd2.1
      have hb2b : ∀ k, k ≠ n → k ≠ surpriseNameOf n →
          get_buffer (register_buffer
            (register_buffer bufs (surpriseNameOf n)
              (Tensor.add (Tensor.smul eta past) (Tensor.smul lr g))) n
            (Tensor.add (Tensor.smul (1 - alpha) w)
              (Tensor.add (Tensor.smul eta past) (Tensor.smul lr g)))) k
          = get_buffer bufs k := by
        intro k hka hkb
        rw [get_buffer_register_buffer_ne _ _ _ _ hka,
          get_buffer_register_buffer_ne _ _ _ _ hkb]
      rw [hred]
      refine ⟨ih1, by rw [ih2, hk2], ?_, ?_, ?_⟩
      · rw [ih3]
        simp [List.countP_cons]
      · intro k hk
        rcases hk (some g, n, w) (List.mem_cons_self _ _) with hbad | ⟨hka, hkb⟩
        · exact absurd hbad (by simp)
        · rw [ih4 k (fun y hy => hk y (List.mem_cons_of_mem _ hy)), hb2b k hka hkb]
      · intro y hy s0 hs0
        rcases List.mem_cons.mp hy with hhead | htail
        · obtain rfl := hhead
          obtain rfl : past = s0 := hpasts0 s0 hs0
          have hfr1 : get_buffer (updateLoop lr eta alpha rest
              (register_buffer
                (register_buffer bufs (surpriseNameOf n)
                  (Tensor.add (Tensor.smul eta past) (Tensor.smul lr g))) n
                (Tensor.add (Tensor.smul (1 - alpha) w)
                  (Tensor.add (Tensor.smul eta past) (Tensor.smul lr g)))) ws).store n
              = some (Tensor.add (Tensor.smul (1 - alpha) w)
                  (Tensor.add (Tensor.smul eta past) (Tensor.smul lr g))) := by
            rw [ih4 n (fun y hy => Or.inr ⟨hnotin y hy,
                ne_surpriseNameOf_of_not_surprise hsn⟩)]
            exact get_buffer_register_buffer_self _ _ _ (hk1 ▸ hnk)
          have hfr2 : get_buffer (updateLoop lr eta alpha rest
              (register_buffer
                (register_buffer bufs (surpriseNameOf n)
                  (Tensor.add (Tensor.smul eta past) (Tensor.smul lr g))) n
                (Tensor.add (Tensor.smul (1 - alpha) w)
                  (Tensor.add (Tensor.smul eta past) (Tensor.smul lr g)))) ws).store
                (surpriseNameOf n)
              = some (Tensor.add (Tensor.smul eta past) (Tensor.smul lr g)) := by
            rw [ih4 (surpriseNameOf n) (fun y hy => Or.inr
                ⟨fun he => (ne_surpriseNameOf_of_not_surprise
                    (h1 y (List.mem_cons_of_mem _ hy))) he.symm,
                  fun he => hnotin y hy (surpriseNameOf_inj he)⟩)]
            rw [get_buffer_register_buffer_ne _ _ _ _
              (fun he => (ne_surpriseNameOf_of_not_surprise hsn) he.symm)]
            exact get_buffer_register_buffer_self _ _ _ hsk
          exact ⟨hfr2, hfr1⟩
        · have hs0b : get_buffer (register_buffer
              (register_buffer bufs (surpriseNameOf n)
                (Tensor.add (Tensor.smul eta past) (Tensor.smul lr g))) n
              (Tensor.add (Tensor.smul (1 - alpha) w)
                (Tensor.add (Tensor.smul eta past) (Tensor.smul lr g))))
              (surpriseNameOf y.2.1) = some s0 := by
            rw [hb2b (surpriseNameOf y.2.1)
              (fun he => (ne_surpriseNameOf_of_not_surprise hsn) he.symm)
              (fun he => hnotin y htail (surpriseNameOf_inj he).symm)]
            exact hs0
          have := ih5 y htail s0 hs0b
          rcases hy2 : y.1 with _ | g2
          · rw [hy2] at this
            refine ⟨?_, this.2⟩
            rw [this.1, hb2b y.2.1 (fun he => hnotin y htail he.symm)
              (ne_surpriseNameOf_of_not_surprise (h1 y (List.mem_cons_of_mem _ htail)))]
          · rw [hy2] at this
            exact this

/-! ### Store invariant and the update corollary -/

theorem storeWF_iff (bufs : Buffers) :
    storeWF bufs = true ↔
      (bufKeys bufs).Nodup ∧
      ∀ p ∈ bufs, isSurprise p.1 = false →
        ∃ t, get_buffer bufs (surpriseNameOf p.1) = some t ∧ t.shape = p.2.shape := by
  rw [storeWF, Bool.and_eq_true, decide_eq_true_eq, List.all_eq_true]
  constructor
  · rintro ⟨hnd, hall⟩
    refine ⟨hnd, fun p hp hps => ?_⟩
    have := hall p hp
    rw [hps] at this
    simp only [Bool.false_or] at this
    rcases hg : get_buffer bufs (surpriseNameOf p.1) with _ | t
    · rw [hg] at this
      simp at this
    · rw [hg] at this
      exact ⟨t, rfl, by simpa using this⟩
  · rintro ⟨hnd, hall⟩
    refine ⟨hnd, fun p hp => ?_⟩
    rcases hps : isSurprise p.1 with _ | _
    · rcases hall p hp hps with ⟨t, ht, hsh⟩
      rw [ht]
      simp [hsh]
    · simp

theorem get_named_weights_mem (m : MemoryModule) (p : String × Tensor) :
    p ∈ m.get_named_weights ↔ p ∈ m.buffers ∧ isSurprise p.1 = false := by
  rw [MemoryModule.get_named_weights, List.mem_filter]
  simp

theorem get_named_weights_keys_nodup (m : MemoryModule)
    (hnd : (bufKeys m.buffers).Nodup) :
    (m.get_named_weights.map (fun p => p.1)).Nodup := by
  apply List.Nodup.sublist _ hnd
  exact List.Sublist.map _ (List.filter_sublist m.buffers)

theorem zip_map_snd {α β : Type} (l1 : List α) (l2 : List β)
    (h : l1.length = l2.length) : (l1.zip l2).map Prod.snd = l2 := by
  induction l1 generalizing l2 with
  | nil =>
    cases l2 with
    | nil => rfl
    | cons b t => simp at h
  | cons a t ih =>
    cases l2 with
    | nil => simp at h
    | cons b t2 =>
      simp at h ⊢
      exact ih t2 h

theorem update_ok (m : MemoryModule) (grads : List (Option Tensor)) (eta alpha : ℚ)
    (hwf : storeWF m.buffers = true)
    (hlen : grads.length = m.get_named_weights.length) :
    (m.update grads eta alpha).2.2 = none ∧
    bufKeys (m.update grads eta alpha).1.buffers = bufKeys m.buffers ∧
    (m.update grads eta alpha).1.lr = m.lr ∧
    (m.update grads eta alpha).2.1
      = List.replicate ((grads.zip m.get_named_weights).countP (fun x => x.1.isNone))
          noneGradWarning ∧
    (∀ k, (∀ x ∈ grads.zip m.get_named_weights,
        x.1 = none ∨ (k ≠ x.2.1 ∧ k ≠ surpriseNameOf x.2.1)) →
      get_buffer (m.update grads eta alpha).1.buffers k = get_buffer m.buffers k) ∧
    (∀ x ∈ grads.zip m.get_named_weights, ∀ s0,
      get_buffer m.buffers (surpriseNameOf x.2.1) = some s0 →
      match x.1 with
      | none =>
          get_buffer (m.update grads eta alpha).1.buffers x.2.1
            = get_buffer m.buffers x.2.1 ∧
          get_buffer (m.update grads eta alpha).1.buffers (surpriseNameOf x.2.1)
            = some s0
      | some g =>
          get_buffer (m.update grads eta alpha).1.buffers (surpriseNameOf x.2.1)
            = some (Tensor.add (Tensor.smul eta s0) (Tensor.smul m.lr g)) ∧
          get_buffer (m.update grads eta alpha).1.buffers x.2.1
            = some (Tensor.add (Tensor.smul (1 - alpha) x.2.2)
                (Tensor.add (Tensor.smul eta s0) (Tensor.smul m.lr g)))) := by
  obtain ⟨hnd, hsurp⟩ := (storeWF_iff m.buffers).mp hwf
  have hmemw : ∀ x ∈ grads.zip m.get_named_weights, x.2 ∈ m.get_named_weights := by
    intro x hx
    exact (List.of_mem_zip hx).2
  have h1 : ∀ x ∈ grads.zip m.get_named_weights, isSurprise x.2.1 = false := by
    intro x hx
    exact ((get_named_weights_mem m x.2).mp (hmemw x hx)).2
  have h2 : ∀ x ∈ grads.zip m.get_named_weights, x.2.1 ∈ bufKeys m.buffers := by
    intro x hx
    exact List.mem_map.mpr ⟨x.2, ((get_named_weights_mem m x.2).mp (hmemw x hx)).1, rfl⟩
  have h3 : ∀ x ∈ grads.zip m.get_named_weights,
      surpriseNameOf x.2.1 ∈ bufKeys m.buffers := by
    intro x hx
    rcases hsurp x.2 ((get_named_weights_mem m x.2).mp (hmemw x hx)).1 (h1 x hx) with
      ⟨t, ht, -⟩
    exact mem_keys_of_get_buffer ht
  have h4 : ((grads.zip m.get_named_weights).map (fun x => x.2.1)).Nodup := by
    have : (grads.zip m.get_named_weights).map (fun x => x.2.1)
        = m.get_named_weights.map (fun p => p.1) := by
      have hz := zip_map_snd grads m.get_named_weights hlen
      calc (grads.zip m.get_named_weights).map (fun x => x.2.1)
          = ((grads.zip m.get_named_weights).map Prod.snd).map (fun p => p.1) := by
            rw [List.map_map]; rfl
        _ = m.get_named_weights.map (fun p => p.1) := by rw [hz]
    rw [this]
    exact get_named_weights_keys_nodup m hnd
  obtain ⟨c1, c2, c3, c4, c5⟩ :=
    updateLoop_spec m.lr eta alpha (grads.zip m.get_named_weights) m.buffers [] h1 h2 h3 h4
  have hup : m.update grads eta alpha
      = ({ m with buffers := (updateLoop m.lr eta alpha
            (grads.zip m.get_named_weights) m.buffers []).store },
         (updateLoop m.lr eta alpha (grads.zip m.get_named_weights) m.buffers []).warnings,
         (updateLoop m.lr eta alpha (grads.zip m.get_named_weights) m.buffers []).err) := by
    rw [MemoryModule.update]
    simp [hlen]
  rw [hup]
  refine ⟨c1, c2, rfl, by simpa using c3, c4, c5⟩

theorem Tensor.shape_add (a b : Tensor) : (Tensor.add a b).shape = a.shape := rfl

theorem Tensor.shape_smul (c : ℚ) (t : Tensor) : (Tensor.smul c t).shape = t.shape := rfl

theorem update_shape_preserved (m : MemoryModule) (grads : List (Option Tensor))
    (eta alpha : ℚ) (hwf : storeWF m.buffers = true)
    (hlen : grads.length = m.get_named_weights.length) :
    ∀ k t', get_buffer (m.update grads eta alpha).1.buffers k = some t' →
      ∃ t, get_buffer m.buffers k = some t ∧ t'.shape = t.shape := by
  obtain ⟨hnd, hsurp⟩ := (storeWF_iff m.buffers).mp hwf
  obtain ⟨c1, c2, c3, c4, c5, c6⟩ := update_ok m grads eta alpha hwf hlen
  intro k t' ht'
  by_cases hcase : ∃ y ∈ grads.zip m.get_named_weights,
      k = y.2.1 ∨ k = surpriseNameOf y.2.1
  · obtain ⟨y, hy, hk⟩ := hcase
    have hy2 := (List.of_mem_zip hy).2
    have hymem := ((get_named_weights_mem m y.2).mp hy2).1
    have hys : isSurprise y.2.1 = false := ((get_named_weights_mem m y.2).mp hy2).2
    obtain ⟨s0, hs0, hs0sh⟩ := hsurp y.2 hymem hys
    have hold : get_buffer m.buffers y.2.1 = some y.2.2 := by
      have : (y.2.1, y.2.2) ∈ m.buffers := by simpa using hymem
      exact get_buffer_of_mem_nodup hnd this
    have hmatch := c6 y hy s0 hs0
    rcases hg : y.1 with _ | g
    · rw [hg] at hmatch
      rcases hk with hk | hk
      · subst hk
        rw [hmatch.1] at ht'
        exact ⟨t', ht', rfl⟩
      · subst hk
        rw [hmatch.2] at ht'
        exact ⟨s0, hs0, by simp [← Option.some.inj ht']⟩
    · rw [hg] at hmatch
      rcases hk with hk | hk
      · subst hk
        rw [hmatch.2] at ht'
        refine ⟨y.2.2, hold, ?_⟩
        rw [← Option.some.inj ht']
        simp [Tensor.shape_add, Tensor.shape_smul]
      · subst hk
        rw [hmatch.1] at ht'
        refine ⟨s0, hs0, ?_⟩
        rw [← Option.some.inj ht']
        simp [Tensor.shape_add, Tensor.shape_smul]
  · push_neg at hcase
    rw [c5 k (fun y hy => Or.inr (hcase y hy))] at ht'
    exact ⟨t', ht', rfl⟩

theorem storeWF_update (m : MemoryModule) (grads : List (Option Tensor))
    (eta alpha : ℚ) (hwf : storeWF m.buffers = true) :
    storeWF (m.update grads eta alpha).1.buffers = true := by
  by_cases hlen : grads.length = m.get_named_weights.length
  · obtain ⟨hnd, hsurp⟩ := (storeWF_iff m.buffers).mp hwf
    obtain ⟨c1, c2, c3, c4, c5, c6⟩ := update_ok m grads eta alpha hwf hlen
    have hshape := update_shape_preserved m grads eta alpha hwf hlen
    rw [storeWF_iff]
    have hndnew : (bufKeys (m.update grads eta alpha).1.buffers).Nodup := c2 ▸ hnd
    refine ⟨hndnew, fun p hp hps => ?_⟩
    have hpget : get_buffer (m.update grads eta alpha).1.buffers p.1 = some p.2 :=
      get_buffer_of_mem_nodup hndnew (by simpa using hp)
    obtain ⟨told, htold, hpsh⟩ := hshape p.1 p.2 hpget
    have htoldmem : (p.1, told) ∈ m.buffers := mem_of_get_buffer htold
    obtain ⟨s0, hs0, hs0sh⟩ := hsurp (p.1, told) htoldmem hps
    have hsk : surpriseNameOf p.1 ∈ bufKeys (m.update grads eta alpha).1.buffers := by
      rw [c2]
      exact mem_keys_of_get_buffer hs0
    obtain ⟨tnew, htnew⟩ := get_buffer_isSome_of_mem_keys hsk
    obtain ⟨t2, ht2, ht2sh⟩ := hshape (surpriseNameOf p.1) tnew htnew
    refine ⟨tnew, htnew, ?_⟩
    rw [hs0] at ht2
    rw [ht2sh, ← Option.some.inj ht2, hs0sh, hpsh]
  · rw [MemoryModule.update]
    simp only [if_pos hlen]
    exact hwf

theorem storeWF_applyUpdates (updates : List (List (Option Tensor) × ℚ × ℚ)) :
    ∀ (m : MemoryModule), storeWF m.buffers = true →
      storeWF (applyUpdates m updates).buffers = true := by
  induction updates with
  | nil => intro m h; exact h
  | cons u rest ih =>
    intro m h
    exact ih _ (storeWF_update m u.1 u.2.1 u.2.2 h)

/-! ### Construction-time layout -/

theorem Tensor.shape_zeros_like (t : Tensor) : t.zeros_like.shape = t.shape := rfl

theorem bufKeys_append (a b : Buffers) : bufKeys (a ++ b) = bufKeys a ++ bufKeys b := by
  simp [bufKeys]

theorem register_buffer_not_mem (bufs : Buffers) (n : String) (t : Tensor)
    (h : n ∉ bufKeys bufs) : register_buffer bufs n t = bufs ++ [(n, t)] := by
  rw [register_buffer, if_neg]
  intro hany
  exact h ((any_key_iff bufs n).mp hany)

theorem construct_layers_aux :
    ∀ (ws : List (String × Tensor)) (acc : Buffers),
      (ws.map (fun p => p.1)).Nodup →
      (∀ p ∈ ws, isSurprise p.1 = false) →
      (∀ p ∈ ws, p.1 ∉ bufKeys acc ∧ surpriseNameOf p.1 ∉ bufKeys acc) →
      ws.foldl
        (fun bufs p =>
          register_buffer (register_buffer bufs p.1 p.2)
            (surpriseNameOf p.1) p.2.zeros_like) acc
        = acc ++ interleaved ws := by
  intro ws
  induction ws with
  | nil => intro acc _ _ _; simp [interleaved]
  | cons p rest ih =>
    intro acc hnd hns hfresh
    have hpns : isSurprise p.1 = false := hns p (List.mem_cons_self _ _)
    have hpf := hfresh p (List.mem_cons_self _ _)
    have hndc : (p.1 :: rest.map (fun p => p.1)).Nodup := by
      rw [List.map_cons] at hnd
      exact hnd
    have hnd2 := List.nodup_cons.mp hndc
    have hstep1 : register_buffer acc p.1 p.2 = acc ++ [(p.1, p.2)] :=
      register_buffer_not_mem acc p.1 p.2 hpf.1
    have hstep2 : register_buffer (acc ++ [(p.1, p.2)]) (surpriseNameOf p.1) p.2.zeros_like
        = acc ++ [(p.1, p.2), (surpriseNameOf p.1, p.2.zeros_like)] := by
      rw [register_buffer_not_mem]
      · simp
      · rw [bufKeys_append]
        intro hmem
        rcases List.mem_append.mp hmem with h | h
        · exact hpf.2 h
        · have : surpriseNameOf p.1 = p.1 := by simpa [bufKeys] using h
          exact (ne_surpriseNameOf_of_not_surprise hpns) this.symm
    have hnotin : ∀ q ∈ rest, p.1 ≠ q.1 := by
      intro q hq he
      exact hnd2.1 (he ▸ List.mem_map.mpr ⟨q, hq, rfl⟩)
    rw [List.foldl_cons, hstep1, hstep2]
    rw [ih (acc ++ [(p.1, p.2), (surpriseNameOf p.1, p.2.zeros_like)]) hnd2.2
      (fun q hq => hns q (List.mem_cons_of_mem _ hq)) ?_]
    · rw [List.append_assoc]
      rfl
    · intro q hq
      have hqns : isSurprise q.1 = false := hns q (List.mem_cons_of_mem _ hq)
      have hqf := hfresh q (List.mem_cons_of_mem _ hq)
      rw [bufKeys_append]
      constructor
      · intro hmem
        rcases List.mem_append.mp hmem with h | h
        · exact hqf.1 h
        · rcases (by simpa [bufKeys] using h : q.1 = p.1 ∨ q.1 = surpriseNameOf p.1) with
            h | h
          · exact hnotin q hq h.symm
          · exact ne_surpriseNameOf_of_not_surprise hqns h
      · intro hmem
        rcases List.mem_append.mp hmem with h | h
        · exact hqf.2 h
        · rcases (by simpa [bufKeys] using h :
              surpriseNameOf q.1 = p.1 ∨ surpriseNameOf q.1 = surpriseNameOf p.1) with
            h | h
          · exact (ne_surpriseNameOf_of_not_surprise hpns) h.symm
          · exact hnotin q hq (surpriseNameOf_inj h).symm

theorem construct_layers_eq (ws : List (String × Tensor)) (hok : layerListOK ws = true) :
    construct_layers ws = interleaved ws := by
  rw [layerListOK, Bool.and_eq_true] at hok
  obtain ⟨hnd, hns⟩ := hok
  rw [construct_layers, construct_layers_aux ws []
    (by simpa using hnd)
    (fun p hp => by simpa using (List.all_eq_true.mp hns) p hp)
    (fun p hp => ⟨by simp [bufKeys], by simp [bufKeys]⟩)]
  rfl

theorem interleaved_keys_mem :
    ∀ (ws : List (String × Tensor)) (k : String),
      k ∈ bufKeys (interleaved ws) ↔ ∃ p ∈ ws, k = p.1 ∨ k = surpriseNameOf p.1 := by
  intro ws
  induction ws with
  | nil => intro k; simp [interleaved, bufKeys]
  | cons p rest ih =>
    intro k
    simp only [interleaved, bufKeys_cons]
    constructor
    · intro h
      rcases List.mem_cons.mp h with h | h
      · exact ⟨p, List.mem_cons_self _ _, Or.inl h⟩
      · rcases List.mem_cons.mp h with h | h
        · exact ⟨p, List.mem_cons_self _ _, Or.inr h⟩
        · rcases (ih k).mp h with ⟨q, hq, hk⟩
          exact ⟨q, List.mem_cons_of_mem _ hq, hk⟩
    · rintro ⟨q, hq, hk⟩
      rcases List.mem_cons.mp hq with rfl | hq2
      · rcases hk with rfl | rfl
        · exact List.mem_cons_self _ _
        · exact List.mem_cons_of_mem _ (List.mem_cons_self _ _)
      · exact List.mem_cons_of_mem _ (List.mem_cons_of_mem _ ((ih k).mpr ⟨q, hq2, hk⟩))

theorem interleaved_entry_cases :
    ∀ (ws : List (String × Tensor)) (p' : String × Tensor), p' ∈ interleaved ws →
      (∃ q ∈ ws, p' = (q.1, q.2)) ∨ (∃ q ∈ ws, p' = (surpriseNameOf q.1, q.2.zeros_like)) := by
  intro ws
  induction ws with
  | nil => intro p' h; simp [interleaved] at h
  | cons p rest ih =>
    intro p' h
    simp only [interleaved] at h
    rcases List.mem_cons.mp h with rfl | h
    · exact Or.inl ⟨p, List.mem_cons_self _ _, rfl⟩
    · rcases List.mem_cons.mp h with rfl | h
      · exact Or.inr ⟨p, List.mem_cons_self _ _, rfl⟩
      · rcases ih p' h with ⟨q, hq, he⟩ | ⟨q, hq, he⟩
        · exact Or.inl ⟨q, List.mem_cons_of_mem _ hq, he⟩
        · exact Or.inr ⟨q, List.mem_cons_of_mem _ hq, he⟩

theorem interleaved_nodup :
    ∀ (ws : List (String × Tensor)),
      (ws.map (fun p => p.1)).Nodup →
      (∀ p ∈ ws, isSurprise p.1 = false) →
      (bufKeys (interleaved ws)).Nodup := by
  intro ws
  induction ws with
  | nil => intro _ _; simp [interleaved, bufKeys]
  | cons p rest ih =>
    intro hnd hns
    have hndc : (p.1 :: rest.map (fun p => p.1)).Nodup := by
      rw [List.map_cons] at hnd
      exact hnd
    have hnd2 := List.nodup_cons.mp hndc
    have hpns : isSurprise p.1 = false := hns p (List.mem_cons_self _ _)
    have hnotin : ∀ q ∈ rest, p.1 ≠ q.1 := by
      intro q hq he
      exact hnd2.1 (he ▸ List.mem_map.mpr ⟨q, hq, rfl⟩)
    simp only [interleaved, bufKeys_cons]
    rw [List.nodup_cons, List.nodup_cons]
    refine ⟨?_, ?_, ih hnd2.2 (fun q hq => hns q (List.mem_cons_of_mem _ hq))⟩
    · intro h
      rcases List.mem_cons.mp h with h | h
      · exact (ne_surpriseNameOf_of_not_surprise hpns) h
      · rcases (interleaved_keys_mem rest p.1).mp h with ⟨q, hq, hk | hk⟩
        · exact hnotin q hq hk
        · exact (ne_surpriseNameOf_of_not_surprise hpns) hk
    · intro h
      rcases (interleaved_keys_mem rest (surpriseNameOf p.1)).mp h with ⟨q, hq, hk | hk⟩
      · exact (ne_surpriseNameOf_of_not_surprise (hns q (List.mem_cons_of_mem _ hq))) hk.symm
      · exact hnotin q hq (surpriseNameOf_inj hk)

theorem get_buffer_interleaved :
    ∀ (ws : List (String × Tensor)),
      (ws.map (fun p => p.1)).Nodup →
      (∀ p ∈ ws, isSurprise p.1 = false) →
      ∀ p ∈ ws,
        get_buffer (interleaved ws) p.1 = some p.2 ∧
        get_buffer (interleaved ws) (surpriseNameOf p.1) = some p.2.zeros_like := by
  intro ws
  induction ws with
  | nil => intro _ _ p hp; simp at hp
  | cons q rest ih =>
    intro hnd hns p hp
    have hndc : (q.1 :: rest.map (fun p => p.1)).Nodup := by
      rw [List.map_cons] at hnd
      exact hnd
    have hnd2 := List.nodup_cons.mp hndc
    have hqns : isSurprise q.1 = false := hns q (List.mem_cons_self _ _)
    rcases List.mem_cons.mp hp with rfl | hp2
    · constructor
      · simp [interleaved, get_buffer_cons]
      · rw [interleaved, get_buffer_cons,
          if_neg (ne_surpriseNameOf_of_not_surprise hqns), get_buffer_cons, if_pos rfl]
    · have hpns : isSurprise p.1 = false := hns p (List.mem_cons_of_mem _ hp2)
      have hqp : q.1 ≠ p.1 := by
        intro he
        exact hnd2.1 (he ▸ List.mem_map.mpr ⟨p, hp2, rfl⟩)
      have hrec := ih hnd2.2 (fun r hr => hns r (List.mem_cons_of_mem _ hr)) p hp2
      constructor
      · rw [interleaved, get_buffer_cons, if_neg hqp, get_buffer_cons,
          if_neg (fun he => (ne_surpriseNameOf_of_not_surprise hpns) he.symm)]
        exact hrec.1
      · rw [interleaved, get_buffer_cons,
          if_neg (ne_surpriseNameOf_of_not_surprise hqns), get_buffer_cons,
          if_neg (fun he => hqp (surpriseNameOf_inj he))]
        exact hrec.2

theorem storeWF_construct (ws : List (String × Tensor)) (hok : layerListOK ws = true) :
    storeWF (construct_layers ws) = true := by
  have hok2 := hok
  rw [layerListOK, Bool.and_eq_true] at hok2
  obtain ⟨hnd, hns⟩ := hok2
  have hnd2 : (ws.map (fun p => p.1)).Nodup := by simpa using hnd
  have hns2 : ∀ p ∈ ws, isSurprise p.1 = false :=
    fun p hp => by simpa using (List.all_eq_true.mp hns) p hp
  rw [construct_layers_eq ws hok, storeWF_iff]
  refine ⟨interleaved_nodup ws hnd2 hns2, ?_⟩
  intro p hp hps
  rcases interleaved_entry_cases ws p hp with ⟨q, hq, rfl⟩ | ⟨q, hq, rfl⟩
  · exact ⟨q.2.zeros_like, (get_buffer_interleaved ws hnd2 hns2 q hq).2,
      Tensor.shape_zeros_like q.2⟩
  · rw [isSurprise_surpriseNameOf] at hps
    simp at hps

/-! ### The condition fold -/

theorem conditionStep_split (nm : NeuralMemory) (m : MemoryModule) (t : ℚ) (c : Nat)
    (ch : Tensor) :
    conditionStep nm ⟨m, t, c⟩ ch
      = ⟨(conditionStep nm ⟨m, 0, 0⟩ ch).memory, t + chunkSurprise nm m ch, c + 1⟩ := rfl

theorem condition_foldl (nm : NeuralMemory) :
    ∀ (chunks : List Tensor) (m : MemoryModule) (t : ℚ) (c : Nat),
      chunks.foldl (conditionStep nm) ⟨m, t, c⟩
        = ⟨manualFold nm chunks m, t + (surpriseSeq nm chunks m).sum, c + chunks.length⟩ := by
  intro chunks
  induction chunks with
  | nil =>
    intro m t c
    simp [manualFold, surpriseSeq]
  | cons ch rest ih =>
    intro m t c
    rw [List.foldl_cons, conditionStep_split, ih]
    rw [manualFold, surpriseSeq]
    refine congrArg₂ (CondState.mk _) ?_ ?_
    · rw [List.sum_cons]
      ring
    · rw [List.length_cons]
      omega

/-! ### Row-major data access -/

theorem buildList_length (f : Nat → List ℚ) (w : Nat) :
    ∀ n, (∀ i, i < n → (f i).length = w) → (buildList f n).length = n * w := by
  intro n
  induction n with
  | zero => intro _; simp [buildList]
  | succ n ih =>
    intro h
    rw [buildList, List.length_append, ih (fun i hi => h i (Nat.lt_succ_of_lt hi)),
      h n (Nat.lt_succ_self n), Nat.succ_mul]

theorem buildList_getD (f : Nat → List ℚ) (w : Nat) :
    ∀ n, (∀ i, i < n → (f i).length = w) →
      ∀ i j, i < n → j < w → (buildList f n).getD (i * w + j) 0 = (f i).getD j 0 := by
  intro n
  induction n with
  | zero => intro _ i j hi _; exact absurd hi (Nat.not_lt_zero i)
  | succ n ih =>
    intro h i j hi hj
    have hlen : (buildList f n).length = n * w :=
      buildList_length f w n (fun k hk => h k (Nat.lt_succ_of_lt hk))
    rw [buildList]
    rcases Nat.lt_succ_iff_lt_or_eq.mp hi with hi2 | rfl
    · have hidx : i * w + j < (buildList f n).length := by
        rw [hlen]
        calc i * w + j < i * w + w := Nat.add_lt_add_left hj _
          _ = (i + 1) * w := (Nat.succ_mul i w).symm
          _ ≤ n * w := Nat.mul_le_mul_right w hi2
      rw [List.getD_eq_getElem?_getD, List.getElem?_append, if_pos hidx,
        ← List.getD_eq_getElem?_getD]
      exact ih (fun k hk => h k (Nat.lt_succ_of_lt hk)) i j hi2 hj
    · rw [List.getD_eq_getElem?_getD, List.getElem?_append,
        if_neg (by rw [hlen]; omega), ← List.getD_eq_getElem?_getD, hlen]
      congr 1
      omega

theorem rangeMap_getD (f : Nat → ℚ) (c j : Nat) (hj : j < c) :
    ((List.range c).map f).getD j 0 = f j := by
  simp [List.getD_eq_getElem?_getD, List.getElem?_map, List.getElem?_range hj]

theorem rowsData_length (c : Nat) (f : Nat → Nat → ℚ) (r : Nat) :
    (rowsData c f r).length = r * c :=
  buildList_length _ c r (fun i _ => by simp)

theorem rowsData_getD (c : Nat) (f : Nat → Nat → ℚ) (r i j : Nat)
    (hi : i < r) (hj : j < c) :
    (rowsData c f r).getD (i * c + j) 0 = f i j := by
  rw [rowsData, buildList_getD _ c r (fun k _ => by simp) i j hi hj]
  exact rangeMap_getD (f i) c j hj

theorem buildList_congr (f g : Nat → List ℚ) :
    ∀ n, (∀ i, i < n → f i = g i) → buildList f n = buildList g n := by
  intro n
  induction n with
  | zero => intro _; rfl
  | succ n ih =>
    intro h
    rw [buildList, buildList, ih (fun i hi => h i (Nat.lt_succ_of_lt hi)),
      h n (Nat.lt_succ_self n)]

theorem rowsData_ext (c : Nat) (f g : Nat → Nat → ℚ) (r : Nat)
    (h : ∀ i j, i < r → j < c → f i j = g i j) :
    rowsData c f r = rowsData c g r := by
  apply buildList_congr
  intro i hi
  apply List.map_congr_left
  intro j hj
  exact h i j hi (List.mem_range.mp hj)

theorem entry2_mk (r c : Nat) (f : Nat → Nat → ℚ) (i j : Nat) (hi : i < r) (hj : j < c) :
    (Tensor.mk [r, c] (rowsData c f r)).entry2 i j = f i j := by
  rw [Tensor.entry2]
  have hcols : (Tensor.mk [r, c] (rowsData c f r)).cols = c := rfl
  rw [hcols]
  exact rowsData_getD c f r i j hi hj

theorem sumRange_congr (n : Nat) (f g : Nat → ℚ) (h : ∀ k, k < n → f k = g k) :
    sumRange n f = sumRange n g := by
  rw [sumRange, sumRange]
  congr 1
  apply List.map_congr_left
  intro k hk
  exact h k (List.mem_range.mp hk)

/-! ### Chunk extraction and torch.split -/

theorem chunk3_shape (b l d : Nat) (data : List ℚ) (start width : Nat) :
    (chunk3 b l d data start width).shape = [b, width, d] := rfl

theorem chunk3_entry (b l d : Nat) (data : List ℚ) (start width : Nat)
    (bi t di : Nat) (hbi : bi < b) (ht : t < width) (hdi : di < d) :
    (chunk3 b l d data start width).data.getD ((bi * width + t) * d + di) 0
      = data.getD ((bi * l + (start + t)) * d + di) 0 := by
  have hinner : ∀ t2, t2 < width →
      ((List.range d).map
        (fun di => data.getD ((bi * l + (start + t2)) * d + di) 0)).length = d := by
    intro t2 _
    simp
  have houter : ∀ bi2, bi2 < b →
      (buildList (fun t2 => (List.range d).map
        (fun di => data.getD ((bi2 * l + (start + t2)) * d + di) 0)) width).length
        = width * d := by
    intro bi2 _
    exact buildList_length _ d width (fun t2 _ => by simp)
  have hidx : (bi * width + t) * d + di = bi * (width * d) + (t * d + di) := by ring
  have htd : t * d + di < width * d := by
    calc t * d + di < t * d + d := Nat.add_lt_add_left hdi _
      _ = (t + 1) * d := (Nat.succ_mul t d).symm
      _ ≤ width * d := Nat.mul_le_mul_right d ht
  rw [chunk3]
  simp only
  rw [hidx, buildList_getD _ (width * d) b (fun bi2 hbi2 => houter bi2 hbi2) bi
    (t * d + di) hbi htd]
  rw [buildList_getD _ d width (fun t2 ht2 => by simp) t di ht hdi]
  exact rangeMap_getD _ d di hdi

theorem numSplits_pos_eq (l c : Nat) (hc : 1 ≤ c) (hl : 1 ≤ l) :
    numSplits l c = (l + c - 1) / c := by
  rw [numSplits]
  apply max_eq_left
  rw [Nat.le_div_iff_mul_le hc]
  omega

theorem numSplits_cover (l c : Nat) (hc : 1 ≤ c) (hl : 1 ≤ l) :
    c * (numSplits l c - 1) ≤ l := by
  rw [numSplits_pos_eq l c hc hl]
  have h1 : (l + c - 1) / c * c ≤ l + c - 1 := Nat.div_mul_le_self _ _
  have h2 : 1 ≤ (l + c - 1) / c := by
    rw [Nat.le_div_iff_mul_le hc]
    omega
  have h3 : ((l + c - 1) / c - 1) * c + c = (l + c - 1) / c * c := by
    have := Nat.succ_pred_eq_of_pos h2
    calc ((l + c - 1) / c - 1) * c + c = ((l + c - 1) / c - 1 + 1) * c := by
          rw [Nat.succ_mul]
      _ = (l + c - 1) / c * c := by rw [Nat.sub_add_cancel h2]
  have h4 : ((l + c - 1) / c - 1) * c ≤ l - 1 := by omega
  calc c * ((l + c - 1) / c - 1) = ((l + c - 1) / c - 1) * c := Nat.mul_comm _ _
    _ ≤ l - 1 := h4
    _ ≤ l := Nat.sub_le _ _

theorem splitDim1_pos (x : Tensor) (b l d c : Nat) (hc : 1 ≤ c)
    (hx : x.shape = [b, l, d]) :
    splitDim1 x (c : Int) = .ok ((List.range (numSplits l c)).map
      (fun i => chunk3 b l d x.data (c * i) (splitWidth l c (numSplits l c) i))) := by
  rw [splitDim1, hx]
  simp only
  rw [if_neg (by omega), if_neg (by omega)]
  simp [Int.toNat_natCast]

theorem splitWidth_mid (l c n i : Nat) (h : i + 1 < n) : splitWidth l c n i = c :=
  if_pos h

theorem splitWidth_last (l c n : Nat) (hn : 1 ≤ n) :
    splitWidth l c n (n - 1) = l - c * (n - 1) := by
  rw [splitWidth, if_neg (by omega)]

/-! ### The linear forward as a direct matrix product -/

theorem permute10_ok (t : Tensor) (r c : Nat) (ht : t.shape = [r, c]) :
    permute10 t = .ok ⟨[c, r], rowsData r (fun i j => t.entry2 j i) c⟩ := by
  rw [permute10, ht]

theorem permute10_err (t : Tensor) (h : t.shape.length ≠ 2) :
    permute10 t = .error "number of dims do not match in permute" := by
  rw [permute10]
  rcases hs : t.shape with _ | ⟨a, _ | ⟨b, _ | ⟨e, rest⟩⟩⟩
  · rfl
  · rfl
  · rw [hs] at h
    simp at h
  · rfl

theorem matmul2_ok (a b : Tensor) (n m p : Nat)
    (ha : a.shape = [n, m]) (hb : b.shape = [m, p]) :
    matmul2 a b = .ok ⟨[n, p],
      rowsData p (fun i j => sumRange m (fun k => a.entry2 i k * b.entry2 k j)) n⟩ := by
  rw [matmul2, ha, hb]
  simp

theorem LinearMemory_forward_ok (W x : Tensor) (dIn dOut B : Nat)
    (hW : W.shape = [dOut, dIn]) (hx : x.shape = [B, dIn]) :
    LinearMemory.forward W x = .ok ⟨[B, dOut],
      rowsData dOut (fun bb j => sumRange dIn (fun i => x.entry2 bb i * W.entry2 j i)) B⟩ := by
  rw [LinearMemory.forward, permute10_ok x B dIn hx]
  rw [show (do
      let xt ← Except.ok (⟨[dIn, B], rowsData B (fun i j => x.entry2 j i) dIn⟩ : Tensor)
      let y ← matmul2 W xt
      permute10 y : Except String Tensor)
    = (do
      let y ← matmul2 W ⟨[dIn, B], rowsData B (fun i j => x.entry2 j i) dIn⟩
      permute10 y) from rfl]
  rw [matmul2_ok W _ dOut dIn B hW rfl]
  rw [show (do
      let y ← Except.ok (⟨[dOut, B], rowsData B (fun i j =>
        sumRange dIn (fun k => W.entry2 i k *
          (Tensor.mk [dIn, B] (rowsData B (fun i j => x.entry2 j i) dIn)).entry2 k j)) dOut⟩
        : Tensor)
      permute10 y : Except String Tensor)
    = permute10 ⟨[dOut, B], rowsData B (fun i j =>
        sumRange dIn (fun k => W.entry2 i k *
          (Tensor.mk [dIn, B] (rowsData B (fun i j => x.entry2 j i) dIn)).entry2 k j)) dOut⟩
    from rfl]
  rw [permute10_ok _ dOut B rfl]
  refine congrArg Except.ok ?_
  refine congrArg (Tensor.mk [B, dOut]) ?_
  apply rowsData_ext
  intro i j hi hj
  rw [entry2_mk dOut B _ j i hj hi]
  apply sumRange_congr
  intro k hk
  rw [entry2_mk dIn B _ k i hk hi]
  exact Rat.mul_comm _ _

theorem linForward_memForwardSpec (W x : Tensor) (dIn dOut B : Nat)
    (hW : W.shape = [dOut, dIn]) (hx : x.shape = [B, dIn])
    (hxd : x.data.length = B * dIn) (hdIn : 1 ≤ dIn) :
    LinearMemory.forward W x = .ok (memForwardSpec dIn dOut W x) := by
  rw [LinearMemory_forward_ok W x dIn dOut B hW hx, memForwardSpec]
  refine congrArg Except.ok ?_
  have hsh : x.shape.dropLast ++ [dOut] = [B, dOut] := by
    rw [hx]
    rfl
  have hrows : x.data.length / dIn = B := by
    rw [hxd]
    exact Nat.mul_div_cancel B (by omega)
  rw [hsh, hrows]
  refine congrArg (Tensor.mk [B, dOut]) ?_
  apply rowsData_ext
  intro i j hi hj
  have hcols : x.cols = dIn := by
    rw [Tensor.cols, hx]
    rfl
  apply sumRange_congr
  intro k hk
  rw [Tensor.entry2, hcols]
  exact Rat.mul_comm _ _

theorem updateLoop_err_cases (lr eta alpha : ℚ) :
    ∀ (l : List (Option Tensor × String × Tensor)) (bufs : Buffers) (ws : List String),
      (updateLoop lr eta alpha l bufs ws).err = none ∨
      (updateLoop lr eta alpha l bufs ws).err = some missingBufferMsg := by
  intro l
  induction l with
  | nil => intro bufs ws; exact Or.inl rfl
  | cons x rest ih =>
    intro bufs ws
    obtain ⟨g?, n, w⟩ := x
    rw [updateLoop]
    rcases hg : get_buffer bufs (surpriseNameOf n) with _ | past
    · exact Or.inr rfl
    · cases g? with
      | none => exact ih bufs (ws ++ [noneGradWarning])
      | some g => exact ih _ ws

theorem shapeMismatchMsg_ne (a b : Nat) : shapeMismatchMsg a b ≠ missingBufferMsg := by
  intro h
  have hd := congrArg String.data h
  rw [shapeMismatchMsg, missingBufferMsg] at hd
  rw [String.data_append, String.data_append, String.data_append] at hd
  rw [show "Number of gradients ".data = 'N' :: "umber of gradients ".data from rfl] at hd
  rw [show "AttributeError: module has no buffer with the requested name".data
      = 'A' :: "ttributeError: module has no buffer with the requested name".data
    from rfl] at hd
  simp only [List.cons_append] at hd
  injection hd with h1 _
  exact absurd h1 (by decide)

/-! ### The claims -/

/-- C1: for every weight entry whose gradient is provided (not the
no-gradient marker), after `update(grads, eta, alpha)` the stored surprise
buffer equals `eta * surprise_old + lr * grad` and the stored weight equals
`(1 - alpha) * weight_old + (eta * surprise_old + lr * grad)`, where
`surprise_old` and `weight_old` are the buffer values before the call and
`lr` is the store's fixed learning-rate scalar. -/
theorem claim_update_recurrence (m : MemoryModule) (grads : List (Option Tensor))
    (eta alpha : ℚ) (g : Tensor) (n : String) (w : Tensor) (s0 : Tensor)
    (hwf : storeWF m.buffers = true)
    (hlen : grads.length = m.get_named_weights.length)
    (hmem : (some g, (n, w)) ∈ grads.zip m.get_named_weights)
    (hs : get_buffer m.buffers (surpriseNameOf n) = some s0) :
    get_buffer m.buffers n = some w ∧
    get_buffer (m.update grads eta alpha).1.buffers (surpriseNameOf n)
      = some (Tensor.add (Tensor.smul eta s0) (Tensor.smul m.lr g)) ∧
    get_buffer (m.update grads eta alpha).1.buffers n
      = some (Tensor.add (Tensor.smul (1 - alpha) w)
          (Tensor.add (Tensor.smul eta s0) (Tensor.smul m.lr g))) := by
  obtain ⟨hnd, hsurp⟩ := (storeWF_iff m.buffers).mp hwf
  obtain ⟨c1, c2, c3, c4, c5, c6⟩ := update_ok m grads eta alpha hwf hlen
  have hw2 := (List.of_mem_zip hmem).2
  have hmatch := c6 (some g, (n, w)) hmem s0 hs
  refine ⟨?_, hmatch.1, hmatch.2⟩
  exact get_buffer_of_mem_nodup hnd ((get_named_weights_mem m (n, w)).mp hw2).1

theorem claim_update_recurrence_witness :
    get_buffer exStore.buffers "model" = some exW ∧
    get_buffer (exStore.update [some exG] (1 / 2) (1 / 4)).1.buffers
        (surpriseNameOf "model")
      = some (Tensor.add (Tensor.smul (1 / 2) exZ) (Tensor.smul exStore.lr exG)) ∧
    get_buffer (exStore.update [some exG] (1 / 2) (1 / 4)).1.buffers "model"
      = some (Tensor.add (Tensor.smul (1 - 1 / 4) exW)
          (Tensor.add (Tensor.smul (1 / 2) exZ) (Tensor.smul exStore.lr exG))) :=
  claim_update_recurrence exStore [some exG] (1 / 2) (1 / 4) exG "model" exW exZ
    (by decide) (by decide) (by decide) (by decide)

/-- C2: an `update` call with a gradient count different from the
weight-entry count fails with the shape-mismatch error and leaves every
buffer unchanged (the raise happens before any mutation), and an
equal-length call never raises that error. -/
theorem claim_update_shape_mismatch (m : MemoryModule) (grads : List (Option Tensor))
    (eta alpha : ℚ) :
    ((m.update grads eta alpha).2.2
        = some (shapeMismatchMsg grads.length m.get_named_weights.length)
      ↔ grads.length ≠ m.get_named_weights.length) ∧
    (grads.length = m.get_named_weights.length ∨
      m.update grads eta alpha
        = (m, [], some (shapeMismatchMsg grads.length m.get_named_weights.length))) := by
  by_cases hlen : grads.length = m.get_named_weights.length
  · have hne : ¬ grads.length ≠ m.get_named_weights.length := by omega
    have herr := updateLoop_err_cases m.lr eta alpha
      (grads.zip m.get_named_weights) m.buffers []
    have hred : (m.update grads eta alpha).2.2
        = (updateLoop m.lr eta alpha (grads.zip m.get_named_weights) m.buffers []).err := by
      rw [MemoryModule.update]
      simp [hlen]
    refine ⟨⟨fun h => ?_, fun h => absurd hlen h⟩, Or.inl hlen⟩
    rw [hred] at h
    rcases herr with h2 | h2
    · rw [h2] at h
      exact absurd h (by simp)
    · rw [h2] at h
      exact absurd (Option.some.inj h).symm
        (shapeMismatchMsg_ne grads.length m.get_named_weights.length)
  · have hred : m.update grads eta alpha
        = (m, [], some (shapeMismatchMsg grads.length m.get_named_weights.length)) := by
      rw [MemoryModule.update]
      simp [hlen]
    refine ⟨⟨fun _ => hlen, fun _ => by rw [hred]⟩, Or.inr hred⟩

theorem claim_update_shape_mismatch_witness :
    ((exStore.update [] (1 / 2) (1 / 4)).2.2
        = some (shapeMismatchMsg ([] : List (Option Tensor)).length
            exStore.get_named_weights.length)
      ↔ ([] : List (Option Tensor)).length ≠ exStore.get_named_weights.length) ∧
    (([] : List (Option Tensor)).length = exStore.get_named_weights.length ∨
      exStore.update [] (1 / 2) (1 / 4)
        = (exStore, [], some (shapeMismatchMsg ([] : List (Option Tensor)).length
            exStore.get_named_weights.length))) :=
  claim_update_shape_mismatch exStore [] (1 / 2) (1 / 4)

/-- C4: when one gradient entry is the no-gradient marker, that entry's
weight and surprise buffers are unchanged by `update`, a warning-level
diagnostic is emitted and no error is raised, while every entry whose
gradient is present is updated by the recurrence normally. -/
theorem claim_update_none_gradient (m : MemoryModule) (grads : List (Option Tensor))
    (eta alpha : ℚ) (n : String) (w : Tensor)
    (hwf : storeWF m.buffers = true)
    (hlen : grads.length = m.get_named_weights.length)
    (hmem : (none, (n, w)) ∈ grads.zip m.get_named_weights) :
    get_buffer (m.update grads eta alpha).1.buffers n = get_buffer m.buffers n ∧
    get_buffer (m.update grads eta alpha).1.buffers (surpriseNameOf n)
      = get_buffer m.buffers (surpriseNameOf n) ∧
    noneGradWarning ∈ (m.update grads eta alpha).2.1 ∧
    (m.update grads eta alpha).2.2 = none ∧
    (∀ g n' w' s0, (some g, (n', w')) ∈ grads.zip m.get_named_weights →
      get_buffer m.buffers (surpriseNameOf n') = some s0 →
      get_buffer (m.update grads eta alpha).1.buffers (surpriseNameOf n')
        = some (Tensor.add (Tensor.smul eta s0) (Tensor.smul m.lr g)) ∧
      get_buffer (m.update grads eta alpha).1.buffers n'
        = some (Tensor.add (Tensor.smul (1 - alpha) w')
            (Tensor.add (Tensor.smul eta s0) (Tensor.smul m.lr g)))) := by
  obtain ⟨hnd, hsurp⟩ := (storeWF_iff m.buffers).mp hwf
  obtain ⟨c1, c2, c3, c4, c5, c6⟩ := update_ok m grads eta alpha hwf hlen
  have hw2 := (List.of_mem_zip hmem).2
  have hmemb := ((get_named_weights_mem m (n, w)).mp hw2).1
  have hns : isSurprise n = false := ((get_named_weights_mem m (n, w)).mp hw2).2
  obtain ⟨s0, hs0, -⟩ := hsurp (n, w) hmemb hns
  have hmatch := c6 (none, (n, w)) hmem s0 hs0
  refine ⟨hmatch.1, by rw [hmatch.2, hs0], ?_, c1, ?_⟩
  · rw [c4]
    rw [List.mem_replicate]
    refine ⟨?_, rfl⟩
    have hpos : 0 < (grads.zip m.get_named_weights).countP (fun x => x.1.isNone) :=
      List.countP_pos_iff.mpr ⟨(none, (n, w)), hmem, by simp⟩
    omega
  · intro g n' w' s0' hmem' hs0'
    exact c6 (some g, (n', w')) hmem' s0' hs0'

theorem claim_update_none_gradient_witness :
    get_buffer (exStore.update [none] (1 / 2) (1 / 4)).1.buffers "model"
      = get_buffer exStore.buffers "model" ∧
    get_buffer (exStore.update [none] (1 / 2) (1 / 4)).1.buffers
        (surpriseNameOf "model")
      = get_buffer exStore.buffers (surpriseNameOf "model") ∧
    noneGradWarning ∈ (exStore.update [none] (1 / 2) (1 / 4)).2.1 ∧
    (exStore.update [none] (1 / 2) (1 / 4)).2.2 = none ∧
    (∀ g n' w' s0,
      (some g, (n', w')) ∈ ([none] : List (Option Tensor)).zip exStore.get_named_weights →
      get_buffer exStore.buffers (surpriseNameOf n') = some s0 →
      get_buffer (exStore.update [none] (1 / 2) (1 / 4)).1.buffers (surpriseNameOf n')
        = some (Tensor.add (Tensor.smul (1 / 2) s0) (Tensor.smul exStore.lr g)) ∧
      get_buffer (exStore.update [none] (1 / 2) (1 / 4)).1.buffers n'
        = some (Tensor.add (Tensor.smul (1 - 1 / 4) w')
            (Tensor.add (Tensor.smul (1 / 2) s0) (Tensor.smul exStore.lr g)))) :=
  claim_update_none_gradient exStore [none] (1 / 2) (1 / 4) "model" exW
    (by decide) (by decide) (by decide)

/-- C6: in every store built by `_construct_layers` each weight entry has
exactly one paired surprise entry of identical shape under the fixed name
suffix, initialized to all-zeros, the pairing invariant survives every
sequence of `update` calls, and `get_named_weights` excludes the surprise
entries by the marker. -/
theorem claim_store_pairing_invariant (ws : List (String × Tensor)) (lr : ℚ)
    (hok : layerListOK ws = true) :
    storeWF (construct_layers ws) = true ∧
    (∀ p ∈ ws, get_buffer (construct_layers ws) p.1 = some p.2 ∧
      get_buffer (construct_layers ws) (surpriseNameOf p.1) = some p.2.zeros_like) ∧
    (∀ updates, storeWF (applyUpdates ⟨lr, construct_layers ws⟩ updates).buffers = true) ∧
    (∀ (m : MemoryModule) (p : String × Tensor),
      p ∈ m.get_named_weights ↔ p ∈ m.buffers ∧ isSurprise p.1 = false) := by
  have h1 := storeWF_construct ws hok
  have hok2 := hok
  rw [layerListOK, Bool.and_eq_true] at hok2
  obtain ⟨hnd, hns⟩ := hok2
  have hnd2 : (ws.map (fun p => p.1)).Nodup := by simpa using hnd
  have hns2 : ∀ p ∈ ws, isSurprise p.1 = false :=
    fun p hp => by simpa using (List.all_eq_true.mp hns) p hp
  refine ⟨h1, ?_, ?_, fun m p => get_named_weights_mem m p⟩
  · intro p hp
    rw [construct_layers_eq ws hok]
    exact get_buffer_interleaved ws hnd2 hns2 p hp
  · intro updates
    exact storeWF_applyUpdates updates ⟨lr, construct_layers ws⟩ h1

theorem claim_store_pairing_invariant_witness :
    storeWF (construct_layers (LinearMemory.layerList exW)) = true ∧
    (∀ p ∈ LinearMemory.layerList exW,
      get_buffer (construct_layers (LinearMemory.layerList exW)) p.1 = some p.2 ∧
      get_buffer (construct_layers (LinearMemory.layerList exW)) (surpriseNameOf p.1)
        = some p.2.zeros_like) ∧
    (∀ updates, storeWF
      (applyUpdates ⟨1, construct_layers (LinearMemory.layerList exW)⟩ updates).buffers
        = true) ∧
    (∀ (m : MemoryModule) (p : String × Tensor),
      p ∈ m.get_named_weights ↔ p ∈ m.buffers ∧ isSurprise p.1 = false) :=
  claim_store_pairing_invariant (LinearMemory.layerList exW) 1 (by decide)

/-- C7: `LinearMemory.forward` on a batch of `B` row vectors of width
`dim_in` returns `B` row vectors of width `dim_out` equal to `x @ weight^T`,
with no bias and no nonlinearity. -/
theorem claim_linear_forward_matmul (W x : Tensor) (dIn dOut B : Nat)
    (hW : W.shape = [dOut, dIn]) (hx : x.shape = [B, dIn]) (_hB : 1 ≤ B) :
    LinearMemory.forward W x = .ok ⟨[B, dOut],
      rowsData dOut (fun bb j => sumRange dIn (fun i => x.entry2 bb i * W.entry2 j i)) B⟩ :=
  LinearMemory_forward_ok W x dIn dOut B hW hx

theorem claim_linear_forward_matmul_witness :
    LinearMemory.forward exW21 exG = .ok ⟨[1, 2],
      rowsData 2 (fun bb j => sumRange 1 (fun i => exG.entry2 bb i * exW21.entry2 j i)) 1⟩ :=
  claim_linear_forward_matmul exW21 exG 1 2 1 (by decide) (by decide) (by decide)

/-- C8: `NeuralMemory.forward` is a pure read: the module (and hence every
weight and surprise buffer of the memory store) is unchanged; with the query
flag the input goes through the query projection before the memory store's
forward, and without it the input goes to the store's forward unprojected;
on well-shaped 2-dimensional batches the store forward used here agrees with
`LinearMemory.forward` of the non-chunked source. -/
theorem claim_forward_pure_read (nm : NeuralMemory) (x : Tensor) (q : Bool) :
    (nm.forward x q).2 = nm ∧
    (∀ k, get_buffer (nm.forward x q).2.memory.buffers k
      = get_buffer nm.memory.buffers k) ∧
    (nm.forward x true).1 = memForwardSpec nm.dim_in nm.dim_out
        ((get_buffer nm.memory.buffers "model").getD ⟨[], []⟩)
        (affineRows nm.dim_in nm.dim_in nm.queryW nm.queryB x) ∧
    (nm.forward x false).1 = memForwardSpec nm.dim_in nm.dim_out
        ((get_buffer nm.memory.buffers "model").getD ⟨[], []⟩) x ∧
    (∀ (W xq : Tensor) (dIn2 dOut2 B : Nat), W.shape = [dOut2, dIn2] →
      xq.shape = [B, dIn2] → xq.data.length = B * dIn2 → 1 ≤ dIn2 →
      LinearMemory.forward W xq = .ok (memForwardSpec dIn2 dOut2 W xq)) :=
  ⟨rfl, fun _ => rfl, rfl, rfl, fun W xq dIn2 dOut2 B hW hxq hxd hd =>
    linForward_memForwardSpec W xq dIn2 dOut2 B hW hxq hxd hd⟩

theorem claim_forward_pure_read_witness :
    (exNM.forward exX true).2 = exNM ∧
    LinearMemory.forward exW exG = Except.ok (memForwardSpec 1 1 exW exG) :=
  ⟨(claim_forward_pure_read exNM exX true).1,
   (claim_forward_pure_read exNM exX true).2.2.2.2 exW exG 1 1 1 (by decide) (by decide)
     (by decide) (by decide)⟩

/-- C9: the constructor performs no validation: a `NeuralMemoryUnit` with
`update_chunk_size = 0` is built without any construction-time error, and
the failure only surfaces later, inside `condition`, as the split error. -/
theorem claim_init_no_validation :
    (NeuralMemory.init 1 1 0 1 exW exT1 [0] exT1 [0] exT1 [0]).update_chunk_size = 0 ∧
    (NeuralMemory.init 1 1 0 1 exW exT1 [0] exT1 [0] exT1 [0]).condition
        ⟨[1, 2, 1], [1, 1]⟩
      = .error "split_size can only be 0 if dimension size is 0" :=
  ⟨rfl, rfl⟩

theorem splitDim1_chunk3 (x : Tensor) (b l d : Nat) (c : Int) (chunks : List Tensor)
    (hx : x.shape = [b, l, d]) (h : splitDim1 x c = .ok chunks) :
    ∀ ch ∈ chunks, ∃ st w, ch = chunk3 b l d x.data st w := by
  rw [splitDim1, hx] at h
  simp only at h
  by_cases h0 : c < 0
  · rw [if_pos h0] at h
    exact absurd h (by simp)
  · rw [if_neg h0] at h
    by_cases h1 : c = 0
    · rw [if_pos h1] at h
      by_cases h2 : l = 0
      · rw [if_pos h2] at h
        obtain rfl := Except.ok.inj h
        intro ch hch
        obtain rfl := List.mem_singleton.mp hch
        exact ⟨0, 0, rfl⟩
      · rw [if_neg h2] at h
        exact absurd h (by simp)
    · rw [if_neg h1] at h
      obtain rfl := Except.ok.inj h
      intro ch hch
      rcases List.mem_map.mp hch with ⟨i, hi, rfl⟩
      exact ⟨_, _, rfl⟩

/-- C10: `LinearMemory.forward` is only defined for 2-dimensional inputs:
any other number of dimensions makes the `permute(1, 0)` raise; in
particular every chunk the chunked `condition` splits a `[b, l, d]` input
into is 3-dimensional and makes that forward raise. -/
theorem claim_linear_forward_ndim :
    (∀ model x : Tensor, x.shape.length ≠ 2 →
      LinearMemory.forward model x = .error "number of dims do not match in permute") ∧
    (∀ (x : Tensor) (b l d : Nat) (c : Int) (chunks : List Tensor),
      x.shape = [b, l, d] → splitDim1 x c = .ok chunks →
      ∀ ch ∈ chunks, ch.shape.length = 3 ∧
        ∀ model : Tensor,
          LinearMemory.forward model ch
            = .error "number of dims do not match in permute") := by
  have hp1 : ∀ model x : Tensor, x.shape.length ≠ 2 →
      LinearMemory.forward model x = .error "number of dims do not match in permute" := by
    intro model x h
    rw [LinearMemory.forward, permute10_err x h]
    rfl
  refine ⟨hp1, ?_⟩
  intro x b l d c chunks hx hsplit ch hch
  obtain ⟨st, w, rfl⟩ := splitDim1_chunk3 x b l d c chunks hx hsplit ch hch
  exact ⟨rfl, fun model => hp1 model _ (by rw [chunk3_shape]; simp)⟩

theorem claim_linear_forward_ndim_witness :
    LinearMemory.forward exW ⟨[1, 2, 1], [1, 1]⟩
      = .error "number of dims do not match in permute" :=
  claim_linear_forward_ndim.1 exW ⟨[1, 2, 1], [1, 1]⟩ (by decide)

/-- C3 (amended to sequence length at least 1 and chunk size at least 1; for
an empty sequence axis `torch.split` still yields one empty chunk, so one
update call is performed where `ceil(0/c) = 0` would demand none): for a
`[b, L, d]` input, `condition` splits the sequence axis into
`ceil(L/c)` consecutive non-overlapping chunks in original order, all of
width `c` except the last which holds the remainder, performs exactly one
update call per chunk, and the final memory state equals the sequential
chunk-by-chunk fold of the recurrence. -/
theorem claim_condition_chunking
    (nm : NeuralMemory) (x : Tensor) (b L d c : Nat)
    (hc : 1 ≤ c) (hL : 1 ≤ L)
    (hcs : nm.update_chunk_size = (c : Int))
    (hx : x.shape = [b, L, d]) :
    ∃ chunks st,
      splitDim1 x nm.update_chunk_size = .ok chunks ∧
      nm.condition x = .ok st ∧
      chunks.length = (L + c - 1) / c ∧
      st.updateCalls = chunks.length ∧
      st.memory = manualFold nm chunks nm.memory ∧
      (∀ i, i < chunks.length →
        (chunks.getD i ⟨[], []⟩).shape = [b, splitWidth L c chunks.length i, d]) ∧
      (∀ i, i + 1 < chunks.length → splitWidth L c chunks.length i = c) ∧
      c * (chunks.length - 1) + splitWidth L c chunks.length (chunks.length - 1) = L ∧
      (∀ i bi t di, i < chunks.length → bi < b →
        t < splitWidth L c chunks.length i → di < d →
        (chunks.getD i ⟨[], []⟩).data.getD
            ((bi * splitWidth L c chunks.length i + t) * d + di) 0
          = x.data.getD ((bi * L + (c * i + t)) * d + di) 0) := by
  have hsplit : splitDim1 x nm.update_chunk_size
      = .ok ((List.range (numSplits L c)).map
          (fun i => chunk3 b L d x.data (c * i) (splitWidth L c (numSplits L c) i))) := by
    rw [hcs]
    exact splitDim1_pos x b L d c hc hx
  have hlen : ((List.range (numSplits L c)).map
      (fun i => chunk3 b L d x.data (c * i) (splitWidth L c (numSplits L c) i))).length
      = numSplits L c := by
    simp
  have hget : ∀ i, i < numSplits L c →
      ((List.range (numSplits L c)).map
        (fun i => chunk3 b L d x.data (c * i)
          (splitWidth L c (numSplits L c) i))).getD i ⟨[], []⟩
      = chunk3 b L d x.data (c * i) (splitWidth L c (numSplits L c) i) := by
    intro i hi
    simp [List.getD_eq_getElem?_getD, List.getElem?_map, List.getElem?_range hi]
  have hcond : nm.condition x
      = .ok (((List.range (numSplits L c)).map
          (fun i => chunk3 b L d x.data (c * i)
            (splitWidth L c (numSplits L c) i))).foldl
          (conditionStep nm) ⟨nm.memory, 0, 0⟩) := by
    rw [NeuralMemory.condition, hsplit]
    rfl
  have hone : 1 ≤ numSplits L c := le_max_right _ 1
  refine ⟨_, _, hsplit, hcond, ?_, ?_, ?_, ?_, ?_, ?_, ?_⟩
  · rw [hlen, numSplits_pos_eq L c hc hL]
  · rw [condition_foldl]
    simp
  · rw [condition_foldl]
  · intro i hi
    rw [hlen] at hi ⊢
    rw [hget i hi, chunk3_shape]
  · intro i hi
    rw [hlen] at hi ⊢
    exact splitWidth_mid L c _ i hi
  · rw [hlen, splitWidth_last L c (numSplits L c) hone]
    have hcover := numSplits_cover L c hc hL
    generalize hA : c * (numSplits L c - 1) = A at *
    omega
  · intro i bi t di hi hbi ht hdi
    rw [hlen] at hi ht ⊢
    rw [hget i hi]
    exact chunk3_entry b L d x.data (c * i) (splitWidth L c (numSplits L c) i)
      bi t di hbi ht hdi

theorem claim_condition_chunking_witness :
    ∃ chunks st,
      splitDim1 exX exNM.update_chunk_size = .ok chunks ∧
      exNM.condition exX = .ok st ∧
      chunks.length = (5 + 2 - 1) / 2 ∧
      st.updateCalls = chunks.length ∧
      st.memory = manualFold exNM chunks exNM.memory ∧
      (∀ i, i < chunks.length →
        (chunks.getD i ⟨[], []⟩).shape = [1, splitWidth 5 2 chunks.length i, 1]) ∧
      (∀ i, i + 1 < chunks.length → splitWidth 5 2 chunks.length i = 2) ∧
      2 * (chunks.length - 1) + splitWidth 5 2 chunks.length (chunks.length - 1) = 5 ∧
      (∀ i bi t di, i < chunks.length → bi < 1 →
        t < splitWidth 5 2 chunks.length i → di < 1 →
        (chunks.getD i ⟨[], []⟩).data.getD
            ((bi * splitWidth 5 2 chunks.length i + t) * 1 + di) 0
          = exX.data.getD ((bi * 5 + (2 * i + t)) * 1 + di) 0) :=
  claim_condition_chunking exNM exX 1 5 1 2 (by decide) (by decide) (by decide) (by decide)

theorem claim_condition_chunking_ctrex :
    (exNM1.condition exX0).map (fun st => st.updateCalls) = Except.ok 1 ∧
    (0 + 1 - 1) / 1 = 0 :=
  ⟨rfl, rfl⟩

/-- C5: `condition` returns the sum over all chunks of the per-chunk scalar
surprise `l1sum (memForward (key chunk)) (value chunk)` taken against the
evolving store state, and this running total is not fed back into the
recurrence: the resulting memory state equals the fold that never consults
the total. -/
theorem claim_condition_total (nm : NeuralMemory) (x : Tensor)
    (chunks : List Tensor) (st : CondState)
    (hsplit : splitDim1 x nm.update_chunk_size = .ok chunks)
    (hcond : nm.condition x = .ok st) :
    st.total = (surpriseSeq nm chunks nm.memory).sum ∧
    st.memory = manualFold nm chunks nm.memory := by
  rw [NeuralMemory.condition, hsplit] at hcond
  have hst : st = chunks.foldl (conditionStep nm) ⟨nm.memory, 0, 0⟩ := by
    have : Except.ok (chunks.foldl (conditionStep nm) ⟨nm.memory, 0, 0⟩)
        = (Except.ok st : Except String CondState) := hcond
    exact (Except.ok.inj this).symm
  rw [hst, condition_foldl]
  exact ⟨by simp, rfl⟩

theorem claim_condition_total_witness :
    (List.foldl (conditionStep exNM0z) ⟨exNM0z.memory, 0, 0⟩ [exX1z]).total
      = (surpriseSeq exNM0z [exX1z] exNM0z.memory).sum ∧
    (List.foldl (conditionStep exNM0z) ⟨exNM0z.memory, 0, 0⟩ [exX1z]).memory
      = manualFold exNM0z [exX1z] exNM0z.memory :=
  claim_condition_total exNM0z exX1z [exX1z]
    (List.foldl (conditionStep exNM0z) ⟨exNM0z.memory, 0, 0⟩ [exX1z])
    (by decide) (by rfl)
